import Mathlib

/-!
Verification of the LLM provider orchestration subsystem of memos-ai.

This file shallowly embeds the Go code of `plugin/llm` (crypto.go, base.go,
config.go, the service registry, and the TagService) and proves claims about
it.  Conventions of the embedding:

* Go byte strings are `List Nat` (each byte < 256 where it matters);
  Go `string` keys and identifiers that are only compared for equality are
  `List Char` or `String`.
* `time.Time` / `time.Duration` are `Int` (absolute instants / second or
  nanosecond counts; only comparisons and additions are used by the code).
* Go maps are association lists (`List (κ × α)`) when iteration matters,
  or functions `κ → Option α` when only lookup/update matters.
* External library primitives that the repository calls but does not
  implement (AES-GCM sealing, SHA-256, JSON array parsing, the per-attempt
  network outcome) are abstracted as function parameters; their documented
  contracts appear as explicit hypotheses of the theorems and are witnessed
  by concrete instances.
* Go slices whose pointer identity matters (the cache's defensive copy) are
  modelled as indices into an explicit heap of arrays.
-/

set_option linter.unusedVariables false

namespace MemosLLM

/-! ## TagService: rate limiter (part_000, `checkRateLimit`) -/

/-- Configuration for the tag service (`TagServiceConfig`).  Durations are in
abstract integer time units. -/
structure TagServiceConfig where
  maxTagsPerRequest : Nat
  cacheTTL : Int
  maxCacheSize : Nat
  rateLimitRequests : Nat
  rateLimitWindow : Int
  enableAsync : Bool
  asyncWorkers : Nat
  asyncQueueSize : Nat
deriving Repr, DecidableEq

/-- `DefaultTagServiceConfig` from the source (15 min TTL and 1 min window,
expressed in seconds). -/
def DefaultTagServiceConfig : TagServiceConfig :=
  { maxTagsPerRequest := 5
    cacheTTL := 15 * 60
    maxCacheSize := 1000
    rateLimitRequests := 60
    rateLimitWindow := 60
    enableAsync := true
    asyncWorkers := 2
    asyncQueueSize := 100 }

/-- `rateLimitEntry`: per-user fixed-window counter. -/
structure RateLimitEntry where
  count : Nat
  windowEnd : Int
deriving Repr, DecidableEq

/-- The rate-limit table `map[int32]*rateLimitEntry`, as a function map. -/
abbrev RateLimits := Int → Option RateLimitEntry

/-- `checkRateLimit`: returns whether the call is admitted together with the
updated table.  A missing or elapsed window opens a fresh window with count 1;
a full window rejects without mutation; otherwise the counter is incremented. -/
def checkRateLimit (cfg : TagServiceConfig) (now : Int) (rl : RateLimits)
    (userID : Int) : Bool × RateLimits :=
  match rl userID with
  | none =>
      (true, Function.update rl userID (some ⟨1, now + cfg.rateLimitWindow⟩))
  | some entry =>
      if now > entry.windowEnd then
        (true, Function.update rl userID (some ⟨1, now + cfg.rateLimitWindow⟩))
      else if entry.count ≥ cfg.rateLimitRequests then
        (false, rl)
      else
        (true, Function.update rl userID (some ⟨entry.count + 1, entry.windowEnd⟩))

/-! ## Service registry (`service` in the unnamed registry file) -/

/-- An abstract provider as the registry sees it through the `Provider`
interface: its type tag, display name, configuredness (`IsConfigured` is a
pure field check per the contract) and default model. -/
structure ProviderM where
  ptype : String
  pname : String
  configured : Bool
  defaultModel : String
deriving Repr, DecidableEq

/-- `ProviderStatus` snapshots as built by `ListProviders`. -/
structure ProviderStatusM where
  ptype : String
  pname : String
  configured : Bool
  active : Bool
  defaultModel : String
deriving Repr, DecidableEq

/-- The `service` struct: provider map plus the active marker
(`""` = no active provider, as in the Go zero value). -/
structure ServiceState where
  providers : List (String × ProviderM)
  activeProvider : String
deriving Repr, DecidableEq

/-- `NewService`. -/
def NewService : ServiceState := ⟨[], ""⟩

/-- Lookup in the provider map. -/
def pLookup (l : List (String × ProviderM)) (t : String) : Option ProviderM :=
  List.lookup t l

/-- Map insert/overwrite for the provider map. -/
def pInsert (l : List (String × ProviderM)) (t : String) (p : ProviderM) :
    List (String × ProviderM) :=
  l.filter (fun kv => kv.1 ≠ t) ++ [(t, p)]

/-- `RegisterProvider`.  `none` models a nil provider.  Returns the new state
and an error message if any.  The auto-selection check runs on every
registration: the provider becomes active iff no provider is active yet and
it reports configured. -/
def RegisterProvider (s : ServiceState) (p : Option ProviderM) :
    ServiceState × Option String :=
  match p with
  | none => (s, some "cannot register nil provider")
  | some p =>
      let s1 : ServiceState := { s with providers := pInsert s.providers p.ptype p }
      if s.activeProvider = "" ∧ p.configured then
        ({ s1 with activeProvider := p.ptype }, none)
      else
        (s1, none)

/-- `SetActiveProvider`: fails when the type was never registered. -/
def SetActiveProvider (s : ServiceState) (t : String) :
    ServiceState × Option String :=
  if (pLookup s.providers t).isSome then
    ({ s with activeProvider := t }, none)
  else
    (s, some "provider not registered")

/-- `ListProviders`: point-in-time status snapshot. -/
def ListProviders (s : ServiceState) : List ProviderStatusM :=
  s.providers.map fun kv =>
    ⟨kv.1, kv.2.pname, kv.2.configured, kv.1 = s.activeProvider, kv.2.defaultModel⟩

/-- Registry invariant from the spec: the active marker, when set, is a key
present in the provider map. -/
def ServiceInv (s : ServiceState) : Prop :=
  s.activeProvider = "" ∨ (pLookup s.providers s.activeProvider).isSome

/-! ## ConfigManager (config.go) -/

/-- Fallback priority order from `tryFallbackProvider`. -/
def fallbackOrder : List String := ["ollama", "openai", "anthropic", "gemini"]

/-- Whether some registered provider entry of type `t` reports configured
(this is exactly the inner status scan of `tryFallbackProvider`). -/
def hasConfigured (s : ServiceState) (t : String) : Bool :=
  (ListProviders s).any (fun st => st.ptype = t && st.configured)

/-- The inner/outer loops of `tryFallbackProvider` over a remaining priority
list. -/
def tryFallbackGo (s : ServiceState) : List String → ServiceState × Option String
  | [] => (s, some "no configured provider available for fallback")
  | t :: rest =>
      if hasConfigured s t then
        match SetActiveProvider s t with
        | (s1, none) => (s1, none)
        | (_, some _) => tryFallbackGo s rest
      else
        tryFallbackGo s rest

/-- `tryFallbackProvider`. -/
def tryFallbackProvider (s : ServiceState) : ServiceState × Option String :=
  tryFallbackGo s fallbackOrder

/-- `SetActiveProviderWithFallback`: try the preference first; if it is
unregistered, or registered but unconfigured, search the fallback order.
Note the Go code *has already activated* a registered-but-unconfigured
preference before falling back, which the fallback then overwrites or
leaves in place on total failure. -/
def SetActiveProviderWithFallback (s : ServiceState) (t : String) :
    ServiceState × Option String :=
  match SetActiveProvider s t with
  | (s1, none) =>
      match pLookup s1.providers t with
      | some p => if p.configured then (s1, none) else tryFallbackProvider s1
      | none => tryFallbackProvider s1
  | (s1, some _) => tryFallbackProvider s1

/-! ## Shared resilient transport (base.go, `DoRequest` / `handleHTTPError`) -/

/-- The outcome the HTTP client produces for one attempt: a transport-level
failure (connection error or failed body read) or a response with a status
code and body. -/
inductive AttemptOutcome where
  | netFail : AttemptOutcome
  | resp (status : Nat) (body : List Nat) : AttemptOutcome
deriving Repr, DecidableEq

/-- The error taxonomy of provider.go plus the wrapped transport failure.
`apiError` keeps the raw status and body; the Go code additionally formats a
message extracted from the body, which carries no extra information. -/
inductive LLMError where
  | invalidAPIKey : LLMError
  | rateLimited : LLMError
  | providerUnavailable : LLMError
  | apiError (status : Nat) (body : List Nat) : LLMError
  | requestFailed : LLMError
deriving Repr, DecidableEq

/-- `handleHTTPError`: map a non-2xx status to the taxonomy. -/
def handleHTTPError (status : Nat) (body : List Nat) : LLMError :=
  if status = 401 then .invalidAPIKey
  else if status = 429 then .rateLimited
  else if status = 503 ∨ status = 502 ∨ status = 504 then .providerUnavailable
  else .apiError status body

/-- Final outcome of `DoRequest`: the response body on success, or the error
being returned (`failure none` would be Go's nil `lastErr`, which the loop
structure never actually produces). -/
inductive DoOutcome where
  | success (body : List Nat) : DoOutcome
  | failure (e : Option LLMError) : DoOutcome
deriving Repr, DecidableEq

/-- Result of `DoRequest` together with the observable retry behaviour: how
many attempts executed and the sequence of backoff waits (in seconds). -/
structure DoResult where
  outcome : DoOutcome
  attemptsMade : Nat
  waits : List Nat
deriving Repr, DecidableEq

/-- The retry loop of `DoRequest`.  `fuel` is the number of loop iterations
still permitted (`maxRetries + 1 - attempt`); `attempt` is the loop counter;
`lastErr` and `waits` accumulate.  Each iteration with `attempt > 0` first
waits `2^(attempt-1)` seconds.  A 4xx status other than 429 returns its
mapped error immediately; a status < 400 returns the body; transport
failures, 5xx and 429 record the error and continue. -/
def doRequestLoop (outcomes : Nat → AttemptOutcome) (lastErr : Option LLMError)
    (waits : List Nat) (attempt : Nat) : Nat → DoResult
  | 0 => ⟨.failure lastErr, attempt, waits⟩
  | fuel + 1 =>
      let waits1 := if 0 < attempt then waits ++ [2 ^ (attempt - 1)] else waits
      match outcomes attempt with
      | .netFail =>
          doRequestLoop outcomes (some .requestFailed) waits1 (attempt + 1) fuel
      | .resp status body =>
          if 400 ≤ status then
            let e := handleHTTPError status body
            if 400 ≤ status ∧ status < 500 ∧ status ≠ 429 then
              ⟨.failure (some e), attempt + 1, waits1⟩
            else
              doRequestLoop outcomes (some e) waits1 (attempt + 1) fuel
          else
            ⟨.success body, attempt + 1, waits1⟩

/-- `MaxRetries` defaulting: a configured value of 0 means 3. -/
def effMaxRetries (cfg : Nat) : Nat := if cfg = 0 then 3 else cfg

/-- `DoRequest`, abstracted over the per-attempt network outcome.  The loop
runs `for attempt := 0; attempt <= maxRetries; attempt++`. -/
def DoRequest (maxRetriesCfg : Nat) (outcomes : Nat → AttemptOutcome) : DoResult :=
  doRequestLoop outcomes none [] 0 (effMaxRetries maxRetriesCfg + 1)

/-- An attempt outcome on which the loop continues retrying: a transport
failure, a 429, or a 5xx status. -/
def retryableB : AttemptOutcome → Bool
  | .netFail => true
  | .resp status _ => 400 ≤ status && (status = 429 || 500 ≤ status)

/-- The error which `DoRequest` records for a retryable attempt outcome. -/
def retryErrOf : AttemptOutcome → LLMError
  | .netFail => .requestFailed
  | .resp status body => handleHTTPError status body

/-! ## Default tag suggestion (base.go, `DefaultSuggestTags` and helpers)

Text is handled at the byte level, as in the Go code (`trimTag` indexes
bytes; `isValidTag` ranges over runes, but every rune it accepts is a
single-byte ASCII rune, so the byte-level reading is equivalent). -/

/-- ASCII letter byte (`a-z` or `A-Z`). -/
def isLetterByte (c : Nat) : Bool :=
  (97 ≤ c && c ≤ 122) || (65 ≤ c && c ≤ 90)

/-- Byte allowed inside a tag: letter, digit, hyphen or underscore. -/
def isAllowedByte (c : Nat) : Bool :=
  isLetterByte c || (48 ≤ c && c ≤ 57) || c = 45 || c = 95

/-- The character-scanning loop of `isValidTag`, threading the `hasLetter`
flag and failing on the first disallowed character. -/
def isValidTagLoop (hasLetter : Bool) : List Nat → Bool
  | [] => hasLetter
  | c :: rest =>
      if isAllowedByte c then isValidTagLoop (hasLetter || isLetterByte c) rest
      else false

/-- `isValidTag`: nonempty, at most 50 bytes, only allowed characters, at
least one letter. -/
def isValidTag (s : List Nat) : Bool :=
  if s.length = 0 || 50 < s.length then false
  else isValidTagLoop false s

/-- The characters trimmed by `trimTag`:
space, tab, newline, carriage return, double quote, single quote,
brackets, braces, hash and hyphen. -/
def isTrimByte (c : Nat) : Bool :=
  c = 32 || c = 9 || c = 10 || c = 13 || c = 34 || c = 39 ||
  c = 91 || c = 93 || c = 123 || c = 125 || c = 35 || c = 45

/-- `trimTag`: strip trim-characters from both ends. -/
def trimTag (s : List Nat) : List Nat :=
  ((s.dropWhile isTrimByte).reverse.dropWhile isTrimByte).reverse

/-- Split a byte string on a single-byte separator (all separators passed by
`extractTagsFromText` are single bytes, so this is the behaviour of the
general `splitAndTrim` scan). -/
def splitByte (sep : Nat) : List Nat → List (List Nat)
  | [] => [[]]
  | c :: rest =>
      let r := splitByte sep rest
      if c = sep then [] :: r
      else match r with
        | [] => [[c]]
        | part :: parts => (c :: part) :: parts

/-- `splitAndTrim`: split on the separator, trim each part, and drop parts
that trim to nothing. -/
def splitAndTrim (sep : Nat) (s : List Nat) : List (List Nat) :=
  (splitByte sep s).filterMap fun part =>
    let t := trimTag part
    if t = [] then none else some t

/-- `extractTagsFromText`: try the delimiters comma, newline, semicolon and
space in order; the first delimiter whose split yields at least one valid
tag wins. -/
def extractTagsFromText (text : List Nat) : List (List Nat) :=
  [44, 10, 59, 32].foldl
    (fun tags d =>
      if tags = [] then (splitAndTrim d text).filter isValidTag else tags)
    []

/-- `MaxTags` defaulting in `DefaultSuggestTags`: 0 means 5. -/
def effMaxTags (m : Nat) : Nat := if m = 0 then 5 else m

/-- The response post-processing of `DefaultSuggestTags`: parse the
completion content as a JSON string array (the parser is Go's encoding/json,
abstracted as `jsonArr`); on failure fall back to `extractTagsFromText`;
finally truncate to the effective max-tags.  The prompt construction and the
`Complete` call around this are elided: the claim concerns only the parsing,
extraction and truncation of the returned content. -/
def defaultSuggestTagsTags (jsonArr : List Nat → Option (List (List Nat)))
    (content : List Nat) (maxTags : Nat) : List (List Nat) :=
  let tags := match jsonArr content with
    | some ts => ts
    | none => extractTagsFromText content
  if effMaxTags maxTags < tags.length then tags.take (effMaxTags maxTags) else tags

/-- From the claim's words (C6): tags recovered "by splitting the text on
commas, newlines and semicolons and keeping only strings of length at most
50 that contain at least one letter and consist only of letters, digits,
hyphens and underscores". -/
def specValidTag (s : List Nat) : Bool :=
  s.length ≤ 50 && s.any isLetterByte && s.all isAllowedByte

/-- Simultaneous split on a set of delimiter bytes. -/
def splitOnAny (delims : List Nat) : List Nat → List (List Nat)
  | [] => [[]]
  | c :: rest =>
      let r := splitOnAny delims rest
      if delims.contains c then [] :: r
      else match r with
        | [] => [[c]]
        | part :: parts => (c :: part) :: parts

/-- The extraction procedure exactly as the claim states it (split on
commas, newlines and semicolons; keep valid tokens). -/
def specExtractTags (text : List Nat) : List (List Nat) :=
  (splitOnAny [44, 10, 59] text).filter specValidTag

/-- The amended description of the code's extraction: delimiters comma,
newline, semicolon and space are tried in that order; each candidate token
is trimmed of surrounding whitespace, quotes, brackets, braces, hashes and
hyphens; a token is kept when it is at most 50 bytes, contains a letter and
consists only of letters, digits, hyphens and underscores; the first
delimiter producing at least one kept token wins. -/
def specExtractTagsAmended (text : List Nat) : List (List Nat) :=
  let tokensFor := fun (d : Nat) =>
    ((splitByte d text).map trimTag).filter specValidTag
  match [44, 10, 59, 32].find? (fun d => tokensFor d ≠ []) with
  | some d => tokensFor d
  | none => []

/-! ## TagService: cache, eviction, jobs (part_000)

SHA-256 is abstracted as a parameter `sha`; the cache key only needs that
the hash is a function of the written byte stream.  Tag slices are modelled
as references into an explicit heap so that the defensive copy made by
`getFromCache` is observable. -/

/-- Lower-case hex digit. -/
def hexDigit (n : Nat) : Char :=
  if n < 10 then Char.ofNat (48 + n) else Char.ofNat (87 + n)

/-- `hex.EncodeToString`. -/
def hexEncode : List Nat → List Char
  | [] => []
  | b :: rest => hexDigit (b / 16) :: hexDigit (b % 16) :: hexEncode rest

/-- `cacheKey`: the content bytes and each tag's bytes are written to the
hash with no separator, then the first 32 hex characters are kept. -/
def cacheKey (sha : List Nat → List Nat) (content : List Nat)
    (existingTags : List (List Nat)) : List Char :=
  (hexEncode (sha (content ++ existingTags.flatten))).take 32

/-- `cachedTags`: a cached result, holding a reference to the tags slice and
its creation time. -/
structure CacheEntry where
  tagsRef : Nat
  createdAt : Int
deriving Repr, DecidableEq

/-- The cache map, as an association list (Go map iteration order is
unspecified; the list order stands in for it). -/
abbrev CacheMap := List (List Char × CacheEntry)

/-- The heap of tag slices; a slice value is an index into it. -/
abbrev SliceHeap := List (List (List Nat))

/-- Allocate a fresh slice holding `v`. -/
def heapAlloc (h : SliceHeap) (v : List (List Nat)) : SliceHeap × Nat :=
  (List.append h [v], h.length)

/-- Read a slice. -/
def heapGet (h : SliceHeap) (r : Nat) : List (List Nat) :=
  h.getD r []

/-- `TagJobStatus`. -/
inductive TagJobStatus where
  | pending | running | completed | failed
deriving Repr, DecidableEq

/-- `TagJob`. -/
structure TagJobM where
  id : List Char
  memoID : Int
  content : List Nat
  existingTags : List (List Nat)
  userID : Int
  status : TagJobStatus
  result : Option (List (List Nat))
  errMsg : Option LLMError
  createdAt : Int
  completedAt : Option Int
deriving Repr, DecidableEq

/-- The mutable state of a `TagService`. -/
structure TagServiceState where
  cache : CacheMap
  heap : SliceHeap
  rateLimits : RateLimits
  jobs : List Char → Option TagJobM
  jobQueue : List TagJobM

/-- Whether a cache entry is expired at time `now`
(`now.Sub(entry.createdAt) > ts.config.CacheTTL`). -/
def isExpired (cfg : TagServiceConfig) (now : Int) (e : CacheEntry) : Bool :=
  cfg.cacheTTL < now - e.createdAt

/-- `getFromCache`: look the key up; a missing or expired entry is a miss;
a hit allocates a fresh copy of the stored slice and returns its reference
(`result := make(...); copy(result, cached.tags)`). -/
def getFromCache (cfg : TagServiceConfig) (sha : List Nat → List Nat)
    (now : Int) (st : TagServiceState) (content : List Nat)
    (existingTags : List (List Nat)) : TagServiceState × Option Nat :=
  let key := cacheKey sha content existingTags
  match List.lookup key st.cache with
  | none => (st, none)
  | some e =>
      if isExpired cfg now e then (st, none)
      else
        let copied := heapAlloc st.heap (heapGet st.heap e.tagsRef)
        ({ st with heap := copied.1 }, some copied.2)

/-- The scan of the selection loop in `evictOldestEntries`: track the index
and creation time of the currently-oldest entry, updating only on a strictly
smaller time (`entries[j].createdAt.Before(entries[oldest].createdAt)`), so
the first occurrence of the minimum wins. -/
def firstMinAux (bi : Nat) (bv : Int) (j : Nat) :
    List (List Char × CacheEntry) → Nat × Int
  | [] => (bi, bv)
  | e :: rest =>
      if e.2.createdAt < bv then firstMinAux j e.2.createdAt (j + 1) rest
      else firstMinAux bi bv (j + 1) rest

/-- One pass of the selection loop: extract the first-oldest entry; the
former head entry takes the extracted entry's position (the loop swaps
`entries[i]` and `entries[oldest]` and then moves past position `i`). -/
def extractOldest :
    List (List Char × CacheEntry) →
    Option ((List Char × CacheEntry) × List (List Char × CacheEntry))
  | [] => none
  | h :: t =>
      match firstMinAux 0 h.2.createdAt 1 t with
      | (0, _) => some (h, t)
      | (m + 1, _) =>
          match t.get? m with
          | some e => some (e, t.set m h)
          | none => some (h, t)

/-- The outer removal loop: extract the oldest entry `toRemove` times
(`i < toRemove && i < len(entries)`), returning the removed entries and the
remaining ones. -/
def selectionRemove (entries : List (List Char × CacheEntry)) :
    Nat → List (List Char × CacheEntry) × List (List Char × CacheEntry)
  | 0 => ([], entries)
  | n + 1 =>
      match extractOldest entries with
      | none => ([], entries)
      | some (e, rest) =>
          let r := selectionRemove rest n
          (e :: r.1, r.2)

/-- `evictOldestEntries`: first delete every expired entry; if the cache is
still at or over `MaxCacheSize`, remove the `MaxCacheSize/10` (at least 1)
oldest remaining entries by creation time. -/
def evictOldestEntries (cfg : TagServiceConfig) (now : Int)
    (cache : CacheMap) : CacheMap :=
  let purged := cache.filter (fun kv => ¬ isExpired cfg now kv.2)
  if cfg.maxCacheSize ≤ purged.length then
    let t0 := cfg.maxCacheSize / 10
    let toRemove := if t0 < 1 then 1 else t0
    (selectionRemove purged toRemove).2
  else purged

/-- Map insert/overwrite for the cache. -/
def cachePut (c : CacheMap) (k : List Char) (e : CacheEntry) : CacheMap :=
  List.append (c.filter (fun kv => kv.1 ≠ k)) [(k, e)]

/-- `cacheResult`: evict when the cache has reached `MaxCacheSize`, then
store the given tags slice (by reference — the caller's slice is stored, not
a copy) under the key with the current time. -/
def cacheResult (cfg : TagServiceConfig) (sha : List Nat → List Nat)
    (now : Int) (st : TagServiceState) (content : List Nat)
    (existingTags : List (List Nat)) (tagsRef : Nat) : TagServiceState :=
  let key := cacheKey sha content existingTags
  let cache1 :=
    if cfg.maxCacheSize ≤ st.cache.length then evictOldestEntries cfg now st.cache
    else st.cache
  { st with cache := cachePut cache1 key ⟨tagsRef, now⟩ }

/-- The error results of the TagService entry points. -/
inductive TagSvcError where
  | rateLimitExceeded : TagSvcError
  | asyncDisabled : TagSvcError
  | queueFull : TagSvcError
  | llmFailed (e : LLMError) : TagSvcError
deriving Repr, DecidableEq

/-- `SuggestTags` (synchronous): rate-limit check, cache lookup, LLM call
(abstracted as `llm`, the result of `ts.llmService.SuggestTags` for the
request), cache store, return. -/
def suggestTags (cfg : TagServiceConfig) (sha : List Nat → List Nat)
    (llm : List Nat → List (List Nat) → Nat → Except LLMError (List (List Nat)))
    (now : Int) (st : TagServiceState) (userID : Int) (content : List Nat)
    (existingTags : List (List Nat)) :
    Except TagSvcError (List (List Nat)) × TagServiceState :=
  let rlc := checkRateLimit cfg now st.rateLimits userID
  let st1 := { st with rateLimits := rlc.2 }
  if rlc.1 = false then (.error .rateLimitExceeded, st1)
  else
    let gfc := getFromCache cfg sha now st1 content existingTags
    match gfc.2 with
    | some ref => (.ok (heapGet gfc.1.heap ref), gfc.1)
    | none =>
        match llm content existingTags cfg.maxTagsPerRequest with
        | .error e => (.error (.llmFailed e), gfc.1)
        | .ok tags =>
            let alloc := heapAlloc gfc.1.heap tags
            let st3 := cacheResult cfg sha now { gfc.1 with heap := alloc.1 }
              content existingTags alloc.2
            (.ok tags, st3)

/-- `SuggestTagsAsync`: enable check, rate-limit check, cache lookup.  A hit
synthesizes an already-completed job and returns it without touching the job
table or the queue.  A miss records a pending job and attempts a
non-blocking enqueue; a full queue fails immediately (the pending job stays
recorded, as in the source).  `genID` abstracts `generateJobID`, which
hashes the content, the memo id and the current time. -/
def suggestTagsAsync (cfg : TagServiceConfig) (sha : List Nat → List Nat)
    (genID : Int → List Nat → Int → List Char) (now : Int)
    (st : TagServiceState) (userID memoID : Int) (content : List Nat)
    (existingTags : List (List Nat)) :
    Except TagSvcError TagJobM × TagServiceState :=
  if cfg.enableAsync = false then (.error .asyncDisabled, st)
  else
    let rlc := checkRateLimit cfg now st.rateLimits userID
    let st1 := { st with rateLimits := rlc.2 }
    if rlc.1 = false then (.error .rateLimitExceeded, st1)
    else
      let gfc := getFromCache cfg sha now st1 content existingTags
      match gfc.2 with
      | some ref =>
          let job : TagJobM :=
            ⟨genID memoID content now, memoID, content, existingTags, userID,
             .completed, some (heapGet gfc.1.heap ref), none, now, some now⟩
          (.ok job, gfc.1)
      | none =>
          let job : TagJobM :=
            ⟨genID memoID content now, memoID, content, existingTags, userID,
             .pending, none, none, now, none⟩
          let st3 := { gfc.1 with jobs := Function.update gfc.1.jobs job.id (some job) }
          if st3.jobQueue.length < cfg.asyncQueueSize then
            (.ok job, { st3 with jobQueue := List.append st3.jobQueue [job] })
          else
            (.error .queueFull, st3)

/-- `GetJob`. -/
def GetJob (st : TagServiceState) (jobID : List Char) : Option TagJobM :=
  st.jobs jobID

/-! ## Standard base64 (encoding/base64 StdEncoding, as crypto.go uses it)

Implemented concretely so that the ciphertext layout
`base64(nonce ∥ ciphertext ∥ tag)` is modelled faithfully. -/

/-- Character for a 6-bit group. -/
def b64CharOf (n : Nat) : Char :=
  if n < 26 then Char.ofNat (65 + n)
  else if n < 52 then Char.ofNat (97 + (n - 26))
  else if n < 62 then Char.ofNat (48 + (n - 52))
  else if n = 62 then '+'
  else '/'

/-- Inverse of `b64CharOf` on alphabet characters. -/
def b64IndexOf (c : Char) : Option Nat :=
  if 'A' ≤ c ∧ c ≤ 'Z' then some (c.toNat - 65)
  else if 'a' ≤ c ∧ c ≤ 'z' then some (c.toNat - 97 + 26)
  else if '0' ≤ c ∧ c ≤ '9' then some (c.toNat - 48 + 52)
  else if c = '+' then some 62
  else if c = '/' then some 63
  else none

/-- Standard base64 encoding with `=` padding, three input bytes per four
output characters. -/
def b64Encode : List Nat → List Char
  | [] => []
  | [a] =>
      [b64CharOf (a / 4), b64CharOf (a % 4 * 16), '=', '=']
  | [a, b] =>
      [b64CharOf (a / 4), b64CharOf (a % 4 * 16 + b / 16),
       b64CharOf (b % 16 * 4), '=']
  | a :: b :: c :: rest =>
      b64CharOf (a / 4) :: b64CharOf (a % 4 * 16 + b / 16) ::
      b64CharOf (b % 16 * 4 + c / 64) :: b64CharOf (c % 64) :: b64Encode rest

/-- Standard base64 decoding: the input must consist of four-character
quanta, `=` padding may appear only in the last quantum (Go's default
decoder, which does not reject nonzero trailing bits). -/
def b64Decode : List Char → Option (List Nat)
  | [] => some []
  | c1 :: c2 :: c3 :: c4 :: rest =>
      if rest = [] ∧ c3 = '=' ∧ c4 = '=' then do
        let s1 ← b64IndexOf c1
        let s2 ← b64IndexOf c2
        some [s1 * 4 + s2 / 16]
      else if rest = [] ∧ c4 = '=' then do
        let s1 ← b64IndexOf c1
        let s2 ← b64IndexOf c2
        let s3 ← b64IndexOf c3
        some [s1 * 4 + s2 / 16, s2 % 16 * 16 + s3 / 4]
      else do
        let s1 ← b64IndexOf c1
        let s2 ← b64IndexOf c2
        let s3 ← b64IndexOf c3
        let s4 ← b64IndexOf c4
        let tail ← b64Decode rest
        some ((s1 * 4 + s2 / 16) :: (s2 % 16 * 16 + s3 / 4) ::
              (s3 % 4 * 64 + s4) :: tail)
  | _ => none

/-! ## KeyCrypto (crypto.go)

AES-256-GCM itself lives in Go's crypto libraries; it is abstracted as an
authenticated-encryption scheme whose `seal` output is the
`ciphertext ∥ tag` blob appended after the nonce.  SHA-256 key derivation is
likewise an abstract function.  The repository's own logic — the length
check, the empty-string short-circuits, base64, and the nonce
prepend/split — is concrete. -/

/-- An authenticated encryption scheme with the shape of `cipher.AEAD`
(`sealGCM key nonce plaintext` is the `ciphertext ∥ tag` blob;
`openGCM key nonce blob` authenticates and decrypts it). -/
structure AEADScheme where
  nonceSize : Nat
  sealGCM : List Nat → List Nat → List Nat → List Nat
  openGCM : List Nat → List Nat → List Nat → Option (List Nat)

/-- `NewKeyCrypto`: reject master keys shorter than 16 bytes, otherwise
derive the 32-byte AES key by hashing the master key. -/
def NewKeyCrypto (sha : List Nat → List Nat) (masterKey : List Nat) :
    Option (List Nat) :=
  if masterKey.length < 16 then none else some (sha masterKey)

/-- `Encrypt`: empty plaintext is a no-op; otherwise draw a nonce (passed in
as a parameter, abstracting the random source), seal, prepend the nonce and
base64-encode (`gcm.Seal(nonce, nonce, plaintext, nil)` appends to the nonce
buffer). -/
def kcEncrypt (g : AEADScheme) (key nonce plaintext : List Nat) : List Char :=
  if plaintext = [] then []
  else b64Encode (nonce ++ g.sealGCM key nonce plaintext)

/-- `Decrypt`: empty input is a no-op; otherwise base64-decode, reject data
shorter than the nonce, split off the nonce and open. -/
def kcDecrypt (g : AEADScheme) (key : List Nat) (ciphertext : List Char) :
    Option (List Nat) :=
  if ciphertext = [] then some []
  else
    match b64Decode ciphertext with
    | none => none
    | some data =>
        if data.length < g.nonceSize then none
        else
          match g.openGCM key (data.take g.nonceSize) (data.drop g.nonceSize) with
          | none => none
          | some plaintext => some plaintext

/-! ## Concrete instances used by the witness theorems -/

/-- A degenerate hash for witnesses: every input hashes to the empty byte
string (any function of the byte stream works for the properties proved). -/
def wSha : List Nat → List Nat := fun _ => []

/-- A trivial authenticated-encryption scheme satisfying the AEAD roundtrip
contract: 1-byte nonces, sealing is the identity. -/
def wAEAD : AEADScheme :=
  { nonceSize := 1
    sealGCM := fun _ _ plaintext => plaintext
    openGCM := fun _ _ ciphertext => some ciphertext }

/-- Attempt outcomes for the transport witness: every attempt fails with a
503. -/
def wOutcomes : Nat → AttemptOutcome := fun _ => .resp 503 []

/-- Attempt outcomes where every attempt fails at the network level. -/
def wOutcomesNetFail : Nat → AttemptOutcome := fun _ => .netFail

/-- A JSON parser stub that always fails (exercising the heuristic
extraction path). -/
def jsonParseNone : List Nat → Option (List (List Nat)) := fun _ => none

/-- A job-id generator for witnesses. -/
def wGenID : Int → List Nat → Int → List Char := fun _ _ _ => ['j']

/-- An LLM tag-suggestion stub that returns no tags. -/
def wLLMok : List Nat → List (List Nat) → Nat → Except LLMError (List (List Nat)) :=
  fun _ _ _ => Except.ok []

/-- A small tag-service configuration for witnesses. -/
def wCfg : TagServiceConfig :=
  { maxTagsPerRequest := 5
    cacheTTL := 900
    maxCacheSize := 10
    rateLimitRequests := 2
    rateLimitWindow := 60
    enableAsync := true
    asyncWorkers := 2
    asyncQueueSize := 4 }

/-- A tag-service configuration with cache capacity 1 (for the eviction
witness). -/
def wCfgOne : TagServiceConfig :=
  { maxTagsPerRequest := 5
    cacheTTL := 900
    maxCacheSize := 1
    rateLimitRequests := 2
    rateLimitWindow := 60
    enableAsync := true
    asyncWorkers := 2
    asyncQueueSize := 4 }

/-- A tag-service configuration with zero cache capacity (the degenerate
case of the eviction counterexample). -/
def wCfgZero : TagServiceConfig :=
  { maxTagsPerRequest := 5
    cacheTTL := 900
    maxCacheSize := 0
    rateLimitRequests := 2
    rateLimitWindow := 60
    enableAsync := true
    asyncWorkers := 2
    asyncQueueSize := 4 }

/-- A tag-service state whose cache holds one entry: the key of content
`[97]` with existing tags `[[98]]` (bytes of `"a"` and `"b"`), stored at
time 0 pointing at heap slot 0, which holds the single tag `[116]`
(`"t"`).  The rate-limit table, job table and queue are empty. -/
def wState : TagServiceState :=
  { cache := [(cacheKey wSha [97] [[98]], ⟨0, 0⟩)]
    heap := [[[116]]]
    rateLimits := fun _ => none
    jobs := fun _ => none
    jobQueue := [] }

/-- An empty tag-service state. -/
def wStateEmpty : TagServiceState :=
  { cache := []
    heap := []
    rateLimits := fun _ => none
    jobs := fun _ => none
    jobQueue := [] }

/-- A rate-limit table for the rate-limiter witness: user 1 has exhausted a
window ending at time 100; user 2 has one request in the same window. -/
def wRateLimits : RateLimits :=
  fun u => if u = 1 then some ⟨2, 100⟩ else if u = 2 then some ⟨1, 100⟩ else none

/-- Tag-service state paired with `wRateLimits`. -/
def wStateRL : TagServiceState :=
  { cache := []
    heap := []
    rateLimits := wRateLimits
    jobs := fun _ => none
    jobQueue := [] }

/-- Providers for the registry witnesses. -/
def wOllama : ProviderM := ⟨"ollama", "Ollama", true, "llama3.2"⟩

/-- An unconfigured OpenAI provider. -/
def wOpenAIUnconfigured : ProviderM := ⟨"openai", "OpenAI", false, "gpt-4o-mini"⟩

/-- A configured OpenAI provider. -/
def wOpenAIConfigured : ProviderM := ⟨"openai", "OpenAI", true, "gpt-4o-mini"⟩

/-- A registry holding only a configured Ollama provider, none active. -/
def wSvcOllamaOnly : ServiceState := ⟨[("ollama", wOllama)], ""⟩

/-- A registry holding a configured Ollama provider which is active. -/
def wSvcActive : ServiceState := ⟨[("ollama", wOllama)], "ollama"⟩

instance : Inhabited CacheEntry := ⟨⟨0, 0⟩⟩

instance : Nonempty (List Char × CacheEntry) := ⟨([], ⟨0, 0⟩)⟩

/-! # Theorems -/

/-! ## Helper lemmas about the registry's association-list map -/

theorem lookup_cons (t k1 : String) (v1 : ProviderM)
    (rest : List (String × ProviderM)) :
    List.lookup t ((k1, v1) :: rest) =
      if t = k1 then some v1 else List.lookup t rest := by
  by_cases h : t = k1
  · subst h; simp [List.lookup]
  · have hb : (t == k1) = false := beq_eq_false_iff_ne.mpr h
    simp [List.lookup, hb, h]

theorem pInsert_cons (kv : String × ProviderM)
    (rest : List (String × ProviderM)) (t : String) (p : ProviderM) :
    pInsert (kv :: rest) t p =
      if kv.1 = t then pInsert rest t p else kv :: pInsert rest t p := by
  by_cases h : kv.1 = t <;> simp [pInsert, List.filter_cons, h]

theorem lookup_pInsert_self (l : List (String × ProviderM)) (t : String)
    (p : ProviderM) : List.lookup t (pInsert l t p) = some p := by
  induction l with
  | nil => simp [pInsert, lookup_cons]
  | cons kv rest ih =>
      rw [pInsert_cons]
      by_cases h : kv.1 = t
      · rw [if_pos h]
        exact ih
      · rw [if_neg h]
        cases kv with
        | mk k1 v1 =>
            simp only at h
            rw [lookup_cons, if_neg (fun h2 => h h2.symm)]
            exact ih

theorem lookup_pInsert_ne (l : List (String × ProviderM)) (t k : String)
    (p : ProviderM) (hne : t ≠ k) :
    List.lookup t (pInsert l k p) = List.lookup t l := by
  induction l with
  | nil => simp [pInsert, lookup_cons, hne]
  | cons kv rest ih =>
      rw [pInsert_cons]
      cases kv with
      | mk k1 v1 =>
          by_cases h : k1 = k
          · subst h
            rw [if_pos rfl, ih, lookup_cons, if_neg hne]
          · rw [if_neg h, lookup_cons, lookup_cons]
            by_cases h2 : t = k1
            · simp [h2]
            · rw [if_neg h2, if_neg h2, ih]

theorem lookup_mem (l : List (String × ProviderM)) (t : String) (p : ProviderM)
    (h : List.lookup t l = some p) : (t, p) ∈ l := by
  induction l with
  | nil => simp [List.lookup] at h
  | cons kv rest ih =>
      cases kv with
      | mk k1 v1 =>
          rw [lookup_cons] at h
          by_cases hk : t = k1
          · rw [if_pos hk] at h
            cases h
            subst hk
            exact List.mem_cons_self _ _
          · rw [if_neg hk] at h
            exact List.mem_cons_of_mem _ (ih h)

theorem any_lookup_isSome (l : List (String × ProviderM)) (t : String)
    (h : l.any (fun kv => decide (kv.1 = t) && kv.2.configured) = true) :
    (List.lookup t l).isSome := by
  induction l with
  | nil => simp at h
  | cons kv rest ih =>
      cases kv with
      | mk k1 v1 =>
          rw [lookup_cons]
          by_cases hk : t = k1
          · simp [hk]
          · rw [if_neg hk]
            simp only [List.any_cons] at h
            have hb : decide (k1 = t) = false := by
              simp
              exact fun h2 => hk h2.symm
            simp only [hb, Bool.false_and, Bool.false_or] at h
            exact ih h

theorem hasConfigured_any (s : ServiceState) (t : String) :
    hasConfigured s t =
      s.providers.any (fun kv => decide (kv.1 = t) && kv.2.configured) := by
  unfold hasConfigured ListProviders
  induction s.providers with
  | nil => rfl
  | cons kv rest ih => simp only [List.map_cons, List.any_cons, ih]

/-! ## C3: fixed-window rate limiting -/

/-- C3: for a user `u` whose current window is still open (`¬ now > windowEnd`)
and whose counter has reached the configured ceiling, the next rate-limit
check rejects without mutating the table, `SuggestTags` and
`SuggestTagsAsync` reject the call with the rate-limit failure, calls by any
other user are unaffected by the rejected call, and once the window end has
passed a fresh window with count 1 is opened and the call is allowed. -/
theorem checkRateLimit_fixed_window (cfg : TagServiceConfig)
    (sha : List Nat → List Nat)
    (llm : List Nat → List (List Nat) → Nat → Except LLMError (List (List Nat)))
    (genID : Int → List Nat → Int → List Char)
    (st : TagServiceState) (u memoID : Int) (content : List Nat)
    (existingTags : List (List Nat)) (e : RateLimitEntry) (now now2 : Int)
    (he : st.rateLimits u = some e)
    (hopen : ¬ now > e.windowEnd)
    (hfull : e.count ≥ cfg.rateLimitRequests)
    (hlater : now2 > e.windowEnd) :
    checkRateLimit cfg now st.rateLimits u = (false, st.rateLimits) ∧
    (suggestTags cfg sha llm now st u content existingTags).1 =
      .error .rateLimitExceeded ∧
    (cfg.enableAsync = true →
      (suggestTagsAsync cfg sha genID now st u memoID content existingTags).1 =
        .error .rateLimitExceeded) ∧
    (∀ v, v ≠ u →
      checkRateLimit cfg now ((checkRateLimit cfg now st.rateLimits u).2) v =
        checkRateLimit cfg now st.rateLimits v) ∧
    (checkRateLimit cfg now2 st.rateLimits u).1 = true ∧
    (checkRateLimit cfg now2 st.rateLimits u).2 u =
      some ⟨1, now2 + cfg.rateLimitWindow⟩ := by
  have h1 : checkRateLimit cfg now st.rateLimits u = (false, st.rateLimits) := by
    unfold checkRateLimit
    rw [he]
    simp only [if_neg hopen, if_pos hfull]
  refine ⟨h1, ?_, ?_, ?_, ?_, ?_⟩
  · unfold suggestTags
    rw [h1]
    rfl
  · intro hasync
    unfold suggestTagsAsync
    rw [hasync, h1]
    rfl
  · intro v hv
    rw [h1]
  · unfold checkRateLimit
    rw [he]
    simp only [if_pos hlater]
  · unfold checkRateLimit
    rw [he]
    simp only [if_pos hlater]
    exact Function.update_same u _ st.rateLimits

/-- Witness for C3 at `wCfg` (ceiling 2) and `wRateLimits`: user 1's window
(ending at 100) is full at time 50; user 2 still gets the same results; at
time 200 user 1 gets a fresh window. -/
theorem checkRateLimit_fixed_window_witness :
    checkRateLimit wCfg 50 wStateRL.rateLimits 1 = (false, wStateRL.rateLimits) ∧
    (suggestTags wCfg wSha wLLMok 50 wStateRL 1 [97] []).1 =
      .error .rateLimitExceeded ∧
    (suggestTagsAsync wCfg wSha wGenID 50 wStateRL 1 7 [97] []).1 =
      .error .rateLimitExceeded ∧
    checkRateLimit wCfg 50 ((checkRateLimit wCfg 50 wStateRL.rateLimits 1).2) 2 =
      checkRateLimit wCfg 50 wStateRL.rateLimits 2 ∧
    (checkRateLimit wCfg 200 wStateRL.rateLimits 1).1 = true ∧
    (checkRateLimit wCfg 200 wStateRL.rateLimits 1).2 1 = some ⟨1, 260⟩ := by
  have h := checkRateLimit_fixed_window wCfg wSha wLLMok wGenID wStateRL 1 7
    [97] [] ⟨2, 100⟩ 50 200 (by decide) (by decide) (by decide) (by decide)
  exact ⟨h.1, h.2.1, h.2.2.1 (by decide), h.2.2.2.1 2 (by decide),
    h.2.2.2.2.1, h.2.2.2.2.2⟩

/-! ## C8: registry invariants -/

theorem listProviders_active_length (a : String) (l : List (String × ProviderM)) :
    ((ListProviders ⟨l, a⟩).filter (fun st => st.active)).length =
      l.countP (fun kv => decide (kv.1 = a)) := by
  induction l with
  | nil => rfl
  | cons kv rest ih =>
      by_cases h : kv.1 = a <;>
        simp only [ListProviders, List.map_cons, List.filter_cons,
          List.countP_cons, h, decide_True, decide_False, if_true, if_false,
          List.length_cons] at ih ⊢ <;>
        simp [ih]

theorem countP_key_le_one (a : String) (l : List (String × ProviderM))
    (hnd : (l.map Prod.fst).Nodup) :
    l.countP (fun kv => decide (kv.1 = a)) ≤ 1 := by
  induction l with
  | nil => simp
  | cons kv rest ih =>
      simp only [List.map_cons, List.nodup_cons] at hnd
      by_cases h : kv.1 = a
      · have hz : rest.countP (fun kv => decide (kv.1 = a)) = 0 := by
          rw [List.countP_eq_zero]
          intro x hx
          simp only [decide_eq_true_eq]
          intro hxa
          exact hnd.1 (by
            rw [← h] at hxa
            exact hxa ▸ List.mem_map_of_mem Prod.fst hx)
        simp [List.countP_cons, h, hz]
      · simp only [List.countP_cons, h, decide_False, if_false, Nat.add_zero]
        exact ih hnd.2

theorem pInsert_keys_nodup (l : List (String × ProviderM)) (t : String)
    (p : ProviderM) (hnd : (l.map Prod.fst).Nodup) :
    ((pInsert l t p).map Prod.fst).Nodup := by
  unfold pInsert
  rw [List.map_append, List.nodup_append]
  refine ⟨?_, by simp, ?_⟩
  · exact hnd.sublist (List.Sublist.map Prod.fst (List.filter_sublist l))
  · intro x hx
    simp only [List.mem_map] at hx
    obtain ⟨kv, hkv, hfst⟩ := hx
    have := List.of_mem_filter hkv
    simp only [decide_not, Bool.not_eq_true', decide_eq_false_iff_not] at this
    simp only [List.map_cons, List.map_nil, List.mem_singleton]
    intro hxt
    exact this (by rw [hfst, hxt])

/-- C8 (amended): the registry keeps at most one active provider and the
active provider is always a registered key; `RegisterProvider` rejects nil;
when no provider is active, a registration (first or repeated) of a
configured provider makes it active; when a provider is already active,
re-registering a type overwrites the stored instance and never changes the
active provider; `SetActiveProvider` fails and changes nothing for an
unregistered type.  (The auto-selection check runs on every registration;
it is a no-op only while some provider is active.) -/
theorem registry_invariants_amended (s : ServiceState) (p : ProviderM)
    (t : String) :
    ((s.providers.map Prod.fst).Nodup →
      ((ListProviders s).filter (fun st => st.active)).length ≤ 1) ∧
    ((RegisterProvider s none).2.isSome ∧ (RegisterProvider s none).1 = s) ∧
    (ServiceInv s → ServiceInv (RegisterProvider s (some p)).1) ∧
    (ServiceInv s → ServiceInv (SetActiveProvider s t).1) ∧
    (s.activeProvider = "" → p.configured = true →
      (RegisterProvider s (some p)).1.activeProvider = p.ptype) ∧
    (s.activeProvider ≠ "" →
      (RegisterProvider s (some p)).1.activeProvider = s.activeProvider ∧
      pLookup (RegisterProvider s (some p)).1.providers p.ptype = some p) ∧
    (pLookup s.providers t = none →
      (SetActiveProvider s t).2.isSome ∧ (SetActiveProvider s t).1 = s) ∧
    ((s.providers.map Prod.fst).Nodup →
      ((RegisterProvider s (some p)).1.providers.map Prod.fst).Nodup) := by
  obtain ⟨l, a⟩ := s
  refine ⟨?_, ⟨rfl, rfl⟩, ?_, ?_, ?_, ?_, ?_, ?_⟩
  · intro hnd
    rw [listProviders_active_length]
    exact countP_key_le_one a l hnd
  · intro hinv
    simp only [RegisterProvider]
    by_cases hc : a = "" ∧ p.configured = true
    · rw [if_pos hc]
      exact Or.inr (by simp [pLookup, lookup_pInsert_self])
    · rw [if_neg hc]
      rcases hinv with hinv | hinv
      · exact Or.inl hinv
      · refine Or.inr ?_
        by_cases hk : a = p.ptype
        · subst hk
          simp [pLookup, lookup_pInsert_self]
        · simpa [pLookup, lookup_pInsert_ne l a p.ptype p hk] using hinv
  · intro hinv
    simp only [SetActiveProvider]
    by_cases hl : (pLookup l t).isSome
    · rw [if_pos hl]
      exact Or.inr hl
    · rw [if_neg hl]
      exact hinv
  · intro ha hp
    simp only [RegisterProvider]
    rw [if_pos ⟨ha, hp⟩]
  · intro ha
    simp only [RegisterProvider]
    rw [if_neg (fun hc => ha hc.1)]
    exact ⟨rfl, lookup_pInsert_self l p.ptype p⟩
  · intro hl
    simp only [SetActiveProvider]
    have hn : ¬ (pLookup l t).isSome := by
      rw [hl]
      simp
    rw [if_neg hn]
    exact ⟨rfl, rfl⟩
  · intro hnd
    simp only [RegisterProvider]
    by_cases hc : a = "" ∧ p.configured = true
    · rw [if_pos hc]
      exact pInsert_keys_nodup l p.ptype p hnd
    · rw [if_neg hc]
      exact pInsert_keys_nodup l p.ptype p hnd

/-- Witness for C8: instantiations at an empty registry, at a registry with
a configured inactive Ollama provider, and at one where Ollama is active. -/
theorem registry_invariants_witness :
    (RegisterProvider NewService none).2.isSome ∧
    ServiceInv (RegisterProvider wSvcOllamaOnly (some wOpenAIConfigured)).1 ∧
    ServiceInv (SetActiveProvider wSvcOllamaOnly "ollama").1 ∧
    (RegisterProvider wSvcOllamaOnly (some wOpenAIConfigured)).1.activeProvider =
      "openai" ∧
    (RegisterProvider wSvcActive (some wOpenAIConfigured)).1.activeProvider =
      "ollama" ∧
    pLookup (RegisterProvider wSvcActive (some wOpenAIConfigured)).1.providers
      "openai" = some wOpenAIConfigured ∧
    (SetActiveProvider NewService "openai").2.isSome ∧
    ((ListProviders wSvcActive).filter (fun st => st.active)).length ≤ 1 := by
  have h1 := registry_invariants_amended wSvcOllamaOnly wOpenAIConfigured "ollama"
  have h2 := registry_invariants_amended wSvcActive wOpenAIConfigured "openai"
  have h3 := registry_invariants_amended NewService wOpenAIConfigured "openai"
  refine ⟨h3.2.1.1, h1.2.2.1 (Or.inl rfl), h1.2.2.2.1 (Or.inl rfl),
    h1.2.2.2.2.1 rfl (by decide), (h2.2.2.2.2.2.1 (by decide)).1,
    (h2.2.2.2.2.2.1 (by decide)).2, (h3.2.2.2.2.2.2.1 (by decide)).1,
    h2.1 (by decide)⟩

/-- Counterexample for C8 as stated: with no provider active, registering an
unconfigured OpenAI provider and then *re-registering* the (already present)
type with a configured instance does change the active provider — the
auto-selection re-runs on re-registration. -/
theorem registry_reregister_counterexample :
    (RegisterProvider NewService (some wOpenAIUnconfigured)).1.activeProvider
      = "" ∧
    (pLookup (RegisterProvider NewService (some wOpenAIUnconfigured)).1.providers
      "openai").isSome ∧
    (RegisterProvider (RegisterProvider NewService (some wOpenAIUnconfigured)).1
      (some wOpenAIConfigured)).1.activeProvider = "openai" := by
  decide

/-! ## C7: fallback provider selection -/

theorem tryFallbackGo_find (s : ServiceState) :
    ∀ order : List String,
      tryFallbackGo s order =
        match order.find? (fun u => hasConfigured s u) with
        | some u => ({ s with activeProvider := u }, none)
        | none => (s, some "no configured provider available for fallback")
  | [] => rfl
  | t :: rest => by
      by_cases h : hasConfigured s t = true
      · have hsome : (pLookup s.providers t).isSome := by
          apply any_lookup_isSome
          rw [← hasConfigured_any]
          exact h
        simp only [tryFallbackGo, if_pos h, SetActiveProvider, if_pos hsome,
          List.find?_cons]
        rw [h]
      · have hfalse : hasConfigured s t = false := by
          cases hx : hasConfigured s t
          · rfl
          · exact absurd hx h
        simp only [tryFallbackGo, if_neg h, List.find?_cons]
        rw [hfalse]
        exact tryFallbackGo_find s rest

theorem hasConfigured_active_irrelevant (l : List (String × ProviderM))
    (a1 a2 : String) :
    (fun v => hasConfigured ⟨l, a1⟩ v) = (fun v => hasConfigured ⟨l, a2⟩ v) := by
  funext v
  rw [hasConfigured_any, hasConfigured_any]

/-- C7: `SetActiveProviderWithFallback` keeps the preferred provider active
when it is registered and configured; when it is unregistered or
unconfigured, the fixed fallback order (Ollama, OpenAI, Anthropic, Gemini)
is searched and the first type with a registered, configured provider
becomes active; when no registered provider is configured, an error is
returned. -/
theorem setActiveWithFallback_spec (s : ServiceState) (t : String) :
    (∀ p, pLookup s.providers t = some p → p.configured = true →
      SetActiveProviderWithFallback s t = ({ s with activeProvider := t }, none)) ∧
    ((pLookup s.providers t = none ∨
        (∃ p, pLookup s.providers t = some p ∧ p.configured = false)) →
      ∀ u, fallbackOrder.find? (fun v => hasConfigured s v) = some u →
        SetActiveProviderWithFallback s t =
          ({ s with activeProvider := u }, none)) ∧
    ((∀ kv ∈ s.providers, kv.2.configured = false) →
      (SetActiveProviderWithFallback s t).2.isSome) := by
  obtain ⟨l, a⟩ := s
  have hfind :
      ∀ a1 a2 : String,
        fallbackOrder.find? (fun v => hasConfigured ⟨l, a1⟩ v) =
          fallbackOrder.find? (fun v => hasConfigured ⟨l, a2⟩ v) := by
    intro a1 a2
    rw [hasConfigured_active_irrelevant l a1 a2]
  refine ⟨?_, ?_, ?_⟩
  · intro p hlook hconf
    have hsome : (pLookup l t).isSome := by rw [hlook]; rfl
    simp only [SetActiveProviderWithFallback, SetActiveProvider, if_pos hsome]
    simp only [hlook, hconf, if_pos]
  · rintro (hl | ⟨p, hl, hconf⟩) u hu
    · have hn : ¬ (pLookup l t).isSome := by rw [hl]; simp
      simp only [SetActiveProviderWithFallback, SetActiveProvider, if_neg hn,
        tryFallbackProvider]
      rw [tryFallbackGo_find, hu]
    · have hsome : (pLookup l t).isSome := by rw [hl]; rfl
      simp only [SetActiveProviderWithFallback, SetActiveProvider, if_pos hsome]
      simp only [hl, hconf]
      simp only [Bool.false_eq_true, if_false, tryFallbackProvider]
      rw [tryFallbackGo_find, hfind t a, hu]
  · intro hall
    have hnoconf : ∀ a1 v, hasConfigured ⟨l, a1⟩ v = false := by
      intro a1 v
      rw [hasConfigured_any]
      simp only [List.any_eq_false]
      intro kv hkv
      simp [hall kv hkv]
    have hnone : ∀ a1 : String,
        fallbackOrder.find? (fun v => hasConfigured ⟨l, a1⟩ v) = none := by
      intro a1
      rw [List.find?_eq_none]
      intro v _
      simp [hnoconf a1 v]
    cases hl : pLookup l t with
    | none =>
        have hn : ¬ (pLookup l t).isSome := by rw [hl]; simp
        simp only [SetActiveProviderWithFallback, SetActiveProvider, if_neg hn,
          tryFallbackProvider]
        rw [tryFallbackGo_find, hnone a]
        rfl
    | some p =>
        have hsome : (pLookup l t).isSome := by rw [hl]; rfl
        have hconf : p.configured = false := hall (t, p) (lookup_mem l t p hl)
        simp only [SetActiveProviderWithFallback, SetActiveProvider,
          if_pos hsome]
        simp only [hl, hconf]
        simp only [Bool.false_eq_true, if_false, tryFallbackProvider]
        rw [tryFallbackGo_find, hnone t]
        rfl

/-- Witness for C7: with only a configured local Ollama provider registered,
requesting activation of the cloud provider `"openai"` succeeds via fallback
and leaves Ollama active; with only an unconfigured OpenAI provider
registered, the call errors. -/
theorem setActiveWithFallback_witness :
    SetActiveProviderWithFallback wSvcOllamaOnly "openai" =
      ({ wSvcOllamaOnly with activeProvider := "ollama" }, none) ∧
    (SetActiveProviderWithFallback ⟨[("openai", wOpenAIUnconfigured)], ""⟩
      "openai").2.isSome := by
  have h1 := setActiveWithFallback_spec wSvcOllamaOnly "openai"
  have h2 := setActiveWithFallback_spec ⟨[("openai", wOpenAIUnconfigured)], ""⟩
    "openai"
  refine ⟨h1.2.1 (Or.inl (by decide)) "ollama" (by decide), h2.2.2 ?_⟩
  intro kv hkv
  simp only [List.mem_singleton] at hkv
  rw [hkv]
  rfl

/-! ## C6: heuristic tag extraction -/

theorem isValidTagLoop_eq (s : List Nat) :
    ∀ acc, isValidTagLoop acc s = (s.all isAllowedByte && (acc || s.any isLetterByte)) := by
  induction s with
  | nil => intro acc; simp [isValidTagLoop]
  | cons c rest ih =>
      intro acc
      by_cases h : isAllowedByte c = true
      · simp only [isValidTagLoop, if_pos h, ih, List.all_cons, List.any_cons, h,
          Bool.true_and]
        cases acc <;> cases hl : isLetterByte c <;>
          cases ha : rest.any isLetterByte <;> simp
      · have hf : isAllowedByte c = false := by
          cases hx : isAllowedByte c
          · rfl
          · exact absurd hx h
        simp [isValidTagLoop, hf, List.all_cons]

theorem isValidTag_eq_spec (s : List Nat) : isValidTag s = specValidTag s := by
  unfold isValidTag specValidTag
  by_cases h0 : s.length = 0
  · cases s with
    | nil => rfl
    | cons c rest => simp at h0
  · by_cases h50 : 50 < s.length
    · have hgt : ¬ s.length ≤ 50 := by omega
      simp [h0, h50, hgt]
    · have hle : s.length ≤ 50 := by omega
      simp only [h0, h50, decide_False, Bool.false_or, Bool.or_false, if_false,
        decide_True]
      rw [isValidTagLoop_eq]
      simp only [Bool.false_or, hle, decide_True, Bool.true_and]
      cases s.all isAllowedByte <;> cases s.any isLetterByte <;> simp

theorem splitAndTrim_filter (sep : Nat) (text : List Nat) :
    (splitAndTrim sep text).filter isValidTag =
      ((splitByte sep text).map trimTag).filter specValidTag := by
  unfold splitAndTrim
  induction splitByte sep text with
  | nil => rfl
  | cons p parts ih =>
      by_cases h : trimTag p = []
      · have hfm : List.filterMap
            (fun part =>
              let t := trimTag part
              if t = [] then none else some t) (p :: parts) =
            List.filterMap
            (fun part =>
              let t := trimTag part
              if t = [] then none else some t) parts := by
          rw [List.filterMap_cons]
          simp [h]
        have hsv : specValidTag (trimTag p) = false := by rw [h]; rfl
        rw [hfm, ih, List.map_cons, List.filter_cons, hsv]
        simp
      · have hfm : List.filterMap
            (fun part =>
              let t := trimTag part
              if t = [] then none else some t) (p :: parts) =
            trimTag p :: List.filterMap
            (fun part =>
              let t := trimTag part
              if t = [] then none else some t) parts := by
          rw [List.filterMap_cons]
          simp [h]
        rw [hfm, List.filter_cons, List.map_cons, List.filter_cons,
          isValidTag_eq_spec, ih]

theorem foldl_pick_stay (g : Nat → List (List Nat)) (acc : List (List Nat))
    (h : acc ≠ []) :
    ∀ ds : List Nat,
      ds.foldl (fun tags d => if tags = [] then g d else tags) acc = acc := by
  intro ds
  induction ds with
  | nil => rfl
  | cons d rest ih => simpa [List.foldl_cons, if_neg h] using ih

theorem foldl_first_nonempty (g : Nat → List (List Nat)) :
    ∀ ds : List Nat,
      ds.foldl (fun tags d => if tags = [] then g d else tags) [] =
        match ds.find? (fun d => g d ≠ []) with
        | some d => g d
        | none => []
  | [] => rfl
  | d :: rest => by
      have hstep :
          List.foldl (fun tags d => if tags = [] then g d else tags) []
            (d :: rest) =
          List.foldl (fun tags d => if tags = [] then g d else tags) (g d)
            rest := by
        rw [List.foldl_cons, if_pos rfl]
      by_cases hg : g d = []
      · have hfind : List.find? (fun d => decide (g d ≠ [])) (d :: rest) =
            List.find? (fun d => decide (g d ≠ [])) rest := by
          rw [List.find?_cons]
          simp [hg]
        rw [hstep, hg, foldl_first_nonempty g rest, hfind]
      · have hfind : List.find? (fun d => decide (g d ≠ [])) (d :: rest) =
            some d := by
          rw [List.find?_cons]
          simp [hg]
        rw [hstep, foldl_pick_stay g (g d) hg rest, hfind]

/-- C6 (amended): the heuristic recovery tries the delimiters comma,
newline, semicolon and *space* in that order, trimming each candidate of
surrounding whitespace, quotes, brackets, braces, hashes and hyphens and
keeping tokens of length ≤ 50 that contain a letter and consist only of
letters, digits, hyphens and underscores — the first delimiter producing at
least one kept token wins; and for every request the tag list is truncated
to the effective max-tags only after parsing/extraction. -/
theorem extractTags_amended :
    (∀ text, extractTagsFromText text = specExtractTagsAmended text) ∧
    (∀ (jsonArr : List Nat → Option (List (List Nat))) (content : List Nat)
        (maxTags : Nat),
      defaultSuggestTagsTags jsonArr content maxTags =
        (match jsonArr content with
         | some ts => ts
         | none => specExtractTagsAmended content).take (effMaxTags maxTags)) := by
  have htake : ∀ (xs : List (List Nat)) (n : Nat),
      (if n < xs.length then xs.take n else xs) = xs.take n := by
    intro xs n
    by_cases h : n < xs.length
    · rw [if_pos h]
    · rw [if_neg h]
      exact (List.take_of_length_le (by omega)).symm
  have hmain : ∀ text, extractTagsFromText text = specExtractTagsAmended text := by
    intro text
    have hg : ∀ d, (splitAndTrim d text).filter isValidTag =
        ((splitByte d text).map trimTag).filter specValidTag :=
      fun d => splitAndTrim_filter d text
    unfold extractTagsFromText specExtractTagsAmended
    simp only [hg]
    exact foldl_first_nonempty
      (fun d => ((splitByte d text).map trimTag).filter specValidTag)
      [44, 10, 59, 32]
  refine ⟨hmain, ?_⟩
  intro jsonArr content maxTags
  unfold defaultSuggestTagsTags
  cases h : jsonArr content with
  | some ts => simp only [htake]
  | none => simp only [htake, hmain]

/-- Counterexample for C6 as stated: on the content `"foo bar"` (which fails
JSON parsing), splitting only on commas, newlines and semicolons recovers no
tag at all, while the code recovers `["foo", "bar"]` via its fourth, space
delimiter. -/
theorem extractTags_counterexample :
    specExtractTags [102, 111, 111, 32, 98, 97, 114] = [] ∧
    extractTagsFromText [102, 111, 111, 32, 98, 97, 114] =
      [[102, 111, 111], [98, 97, 114]] ∧
    defaultSuggestTagsTags jsonParseNone [102, 111, 111, 32, 98, 97, 114] 5 =
      [[102, 111, 111], [98, 97, 114]] ∧
    extractTagsFromText [102, 111, 111, 32, 98, 97, 114] ≠
      specExtractTags [102, 111, 111, 32, 98, 97, 114] := by
  decide

/-! ## C2: transport retry policy -/

theorem doRequestLoop_attempts_le (outcomes : Nat → AttemptOutcome) :
    ∀ (fuel : Nat) (a : Nat) (le : Option LLMError) (w : List Nat),
      (doRequestLoop outcomes le w a fuel).attemptsMade ≤ a + fuel := by
  intro fuel
  induction fuel with
  | zero => intro a le w; simp [doRequestLoop]
  | succ f ih =>
      intro a le w
      simp only [doRequestLoop]
      cases houtcome : outcomes a with
      | netFail =>
          calc (doRequestLoop outcomes (some .requestFailed) _ (a + 1) f).attemptsMade
              ≤ (a + 1) + f := ih (a + 1) _ _
            _ = a + (f + 1) := by omega
      | resp status body =>
          dsimp only
          by_cases h4 : 400 ≤ status
          · rw [if_pos h4]
            by_cases hterm : 400 ≤ status ∧ status < 500 ∧ status ≠ 429
            · rw [if_pos hterm]
              dsimp only
              omega
            · rw [if_neg hterm]
              calc (doRequestLoop outcomes _ _ (a + 1) f).attemptsMade
                  ≤ (a + 1) + f := ih (a + 1) _ _
                _ = a + (f + 1) := by omega
          · rw [if_neg h4]
            dsimp only
            omega

theorem doRequestLoop_waits (outcomes : Nat → AttemptOutcome) :
    ∀ (fuel : Nat) (a : Nat) (le : Option LLMError), 1 ≤ a →
      (doRequestLoop outcomes le ((List.range (a - 1)).map (fun k => 2 ^ k))
          a fuel).waits =
        (List.range
          ((doRequestLoop outcomes le ((List.range (a - 1)).map (fun k => 2 ^ k))
            a fuel).attemptsMade - 1)).map (fun k => 2 ^ k) := by
  intro fuel
  induction fuel with
  | zero => intro a le ha; simp [doRequestLoop]
  | succ f ih =>
      intro a le ha
      have hw : (List.range (a - 1)).map (fun k => 2 ^ k) ++ [2 ^ (a - 1)] =
          (List.range ((a + 1) - 1)).map (fun k => 2 ^ k) := by
        have : (a + 1) - 1 = (a - 1) + 1 := by omega
        rw [this, List.range_succ, List.map_append]
        rfl
      simp only [doRequestLoop, if_pos (by omega : 0 < a)]
      cases houtcome : outcomes a with
      | netFail =>
          rw [hw]
          exact ih (a + 1) _ (by omega)
      | resp status body =>
          dsimp only
          by_cases h4 : 400 ≤ status
          · rw [if_pos h4]
            by_cases hterm : 400 ≤ status ∧ status < 500 ∧ status ≠ 429
            · rw [if_pos hterm]
              dsimp only
              rw [hw]
            · rw [if_neg hterm, hw]
              exact ih (a + 1) _ (by omega)
          · rw [if_neg h4]
            dsimp only
            rw [hw]

theorem doRequest_waits (cfg : Nat) (outcomes : Nat → AttemptOutcome) :
    (DoRequest cfg outcomes).waits =
      (List.range ((DoRequest cfg outcomes).attemptsMade - 1)).map
        (fun k => 2 ^ k) := by
  unfold DoRequest
  generalize effMaxRetries cfg = m
  simp only [doRequestLoop]
  rw [if_neg (by omega : ¬ 0 < 0)]
  cases houtcome : outcomes 0 with
  | netFail =>
      have := doRequestLoop_waits outcomes m 1 (some .requestFailed) (by omega)
      simpa using this
  | resp status body =>
      dsimp only
      by_cases h4 : 400 ≤ status
      · rw [if_pos h4]
        by_cases hterm : 400 ≤ status ∧ status < 500 ∧ status ≠ 429
        · rw [if_pos hterm]
          rfl
        · rw [if_neg hterm]
          have := doRequestLoop_waits outcomes m 1
            (some (handleHTTPError status body)) (by omega)
          simpa using this
      · rw [if_neg h4]
        rfl

theorem retryableB_resp (status : Nat) (body : List Nat)
    (h : retryableB (.resp status body) = true) :
    400 ≤ status ∧ (status = 429 ∨ 500 ≤ status) := by
  simp only [retryableB, Bool.and_eq_true, Bool.or_eq_true, decide_eq_true_eq]
    at h
  exact h

theorem doRequestLoop_terminal (outcomes : Nat → AttemptOutcome)
    (k s : Nat) (b : List Nat) (hks : outcomes k = .resp s b)
    (h4 : 400 ≤ s) (h5 : s < 500) (h9 : s ≠ 429)
    (hprev : ∀ j, j < k → retryableB (outcomes j) = true) :
    ∀ (fuel : Nat) (a : Nat) (le : Option LLMError) (w : List Nat),
      a ≤ k → k < a + fuel →
      (doRequestLoop outcomes le w a fuel).outcome =
        .failure (some (handleHTTPError s b)) ∧
      (doRequestLoop outcomes le w a fuel).attemptsMade = k + 1 := by
  intro fuel
  induction fuel with
  | zero => intro a le w hak hk; omega
  | succ f ih =>
      intro a le w hak hk
      simp only [doRequestLoop]
      rcases Nat.lt_or_ge a k with hlt | hge
      · have hr := hprev a hlt
        cases houtcome : outcomes a with
        | netFail => exact ih (a + 1) _ _ (by omega) (by omega)
        | resp s1 b1 =>
            dsimp only
            rw [houtcome] at hr
            obtain ⟨h41, hror⟩ := retryableB_resp s1 b1 hr
            rw [if_pos h41]
            have hnterm : ¬ (400 ≤ s1 ∧ s1 < 500 ∧ s1 ≠ 429) := by
              intro hc
              obtain ⟨hc1, hc2, hc3⟩ := hc
              rcases hror with h429 | h500
              · exact hc3 h429
              · omega
            rw [if_neg hnterm]
            exact ih (a + 1) _ _ (by omega) (by omega)
      · have hak2 : a = k := by omega
        subst hak2
        rw [hks]
        dsimp only
        rw [if_pos h4, if_pos ⟨h4, h5, h9⟩]
        exact ⟨rfl, rfl⟩

theorem doRequestLoop_exhausted (outcomes : Nat → AttemptOutcome) :
    ∀ (fuel : Nat) (a : Nat) (le : Option LLMError) (w : List Nat),
      1 ≤ fuel → (∀ j, j < a + fuel → retryableB (outcomes j) = true) →
      (doRequestLoop outcomes le w a fuel).outcome =
        .failure (some (retryErrOf (outcomes (a + fuel - 1)))) ∧
      (doRequestLoop outcomes le w a fuel).attemptsMade = a + fuel := by
  intro fuel
  induction fuel with
  | zero => intro a le w hf; omega
  | succ f ih =>
      intro a le w hf hall
      have hra := hall a (by omega)
      simp only [doRequestLoop]
      cases houtcome : outcomes a with
      | netFail =>
          dsimp only
          cases f with
          | zero =>
              simp only [doRequestLoop]
              constructor
              · simp [retryErrOf, houtcome]
              · dsimp only
          | succ f1 =>
              have := ih (a + 1) (some .requestFailed)
                (if 0 < a then w ++ [2 ^ (a - 1)] else w) (by omega)
                (fun j hj => hall j (by omega))
              constructor
              · rw [this.1]
                have harg : a + 1 + (f1 + 1) - 1 = a + (f1 + 1 + 1) - 1 := by
                  omega
                rw [harg]
              · rw [this.2]
                omega
      | resp s1 b1 =>
          dsimp only
          rw [houtcome] at hra
          obtain ⟨h41, hror⟩ := retryableB_resp s1 b1 hra
          rw [if_pos h41]
          have hnterm : ¬ (400 ≤ s1 ∧ s1 < 500 ∧ s1 ≠ 429) := by
            intro hc
            obtain ⟨hc1, hc2, hc3⟩ := hc
            rcases hror with h429 | h500
            · exact hc3 h429
            · omega
          rw [if_neg hnterm]
          cases f with
          | zero =>
              simp only [doRequestLoop]
              constructor
              · simp [retryErrOf, houtcome]
              · dsimp only
          | succ f1 =>
              have := ih (a + 1) (some (handleHTTPError s1 b1))
                (if 0 < a then w ++ [2 ^ (a - 1)] else w) (by omega)
                (fun j hj => hall j (by omega))
              constructor
              · rw [this.1]
                have harg : a + 1 + (f1 + 1) - 1 = a + (f1 + 1 + 1) - 1 := by
                  omega
                rw [harg]
              · rw [this.2]
                omega

/-- C2 (amended): `DoRequest` executes at most `MaxRetries + 1` attempts
(attempt 0 plus up to `MaxRetries` retries; a configured value of 0 means
`MaxRetries = 3`, hence up to 4 attempts); attempt 0 runs immediately and the
wait before each subsequent attempt `k` is `2^(k-1)` seconds; a response with
a 4xx status other than 429 returns its mapped error immediately with no
further attempts (401 maps to the invalid-API-key error); network errors,
5xx and 429 are retried until attempts are exhausted, at which point the
last recorded error is returned. -/
theorem doRequest_retry_policy (cfg : Nat) (outcomes : Nat → AttemptOutcome) :
    (DoRequest cfg outcomes).attemptsMade ≤ effMaxRetries cfg + 1 ∧
    (DoRequest cfg outcomes).waits =
      (List.range ((DoRequest cfg outcomes).attemptsMade - 1)).map
        (fun k => 2 ^ k) ∧
    (∀ b, handleHTTPError 401 b = .invalidAPIKey) ∧
    (∀ k s b, k ≤ effMaxRetries cfg →
      (∀ j, j < k → retryableB (outcomes j) = true) →
      outcomes k = .resp s b → 400 ≤ s → s < 500 → s ≠ 429 →
      (DoRequest cfg outcomes).outcome =
        .failure (some (handleHTTPError s b)) ∧
      (DoRequest cfg outcomes).attemptsMade = k + 1) ∧
    ((∀ j, j ≤ effMaxRetries cfg → retryableB (outcomes j) = true) →
      (DoRequest cfg outcomes).outcome =
        .failure (some (retryErrOf (outcomes (effMaxRetries cfg)))) ∧
      (DoRequest cfg outcomes).attemptsMade = effMaxRetries cfg + 1) := by
  refine ⟨?_, doRequest_waits cfg outcomes, fun b => rfl, ?_, ?_⟩
  · have := doRequestLoop_attempts_le outcomes (effMaxRetries cfg + 1) 0 none []
    simpa [DoRequest] using this
  · intro k s b hk hprev hks h4 h5 h9
    exact doRequestLoop_terminal outcomes k s b hks h4 h5 h9 hprev
      (effMaxRetries cfg + 1) 0 none [] (by omega) (by omega)
  · intro hall
    have := doRequestLoop_exhausted outcomes (effMaxRetries cfg + 1) 0 none []
      (by omega) (fun j hj => hall j (by omega))
    constructor
    · rw [show (0 + (effMaxRetries cfg + 1) - 1) = effMaxRetries cfg by omega]
        at this
      exact this.1
    · have h2 := this.2
      simp only [DoRequest]
      rw [h2]
      omega

/-- Witness for C2 at `MaxRetries = 2` with every attempt answering 503:
three attempts run, backoffs of 1s then 2s are taken and the 503 maps to the
provider-unavailable error; 401 maps to the invalid-API-key error. -/
theorem doRequest_retry_policy_witness :
    (DoRequest 2 wOutcomes).outcome =
      .failure (some .providerUnavailable) ∧
    (DoRequest 2 wOutcomes).attemptsMade = 3 ∧
    (DoRequest 2 wOutcomes).waits = [1, 2] ∧
    handleHTTPError 401 [] = .invalidAPIKey := by
  have h := doRequest_retry_policy 2 wOutcomes
  have h5 := h.2.2.2.2 (fun j hj => rfl)
  refine ⟨h5.1, h5.2, ?_, h.2.2.1 []⟩
  rw [h.2.1, h5.2]
  rfl

/-- Counterexample for C2 as stated: with the default (`MaxRetries` 0 → 3)
and every attempt failing at the network level, `DoRequest` executes 4
attempts, not at most 3. -/
theorem doRequest_attempts_counterexample :
    (DoRequest 0 wOutcomesNetFail).attemptsMade = 4 ∧
    ¬ (DoRequest 0 wOutcomesNetFail).attemptsMade ≤ 3 := by
  decide

/-! ## C4, C9: cache lookup/store, TTL, defensive copies, key collisions -/

theorem clookup_cons (t k1 : List Char) (v1 : CacheEntry) (rest : CacheMap) :
    List.lookup t ((k1, v1) :: rest) =
      if t = k1 then some v1 else List.lookup t rest := by
  by_cases h : t = k1
  · subst h; simp [List.lookup]
  · have hb : (t == k1) = false := beq_eq_false_iff_ne.mpr h
    simp [List.lookup, hb, h]

theorem lookup_cachePut_self (c : CacheMap) (k : List Char) (e : CacheEntry) :
    List.lookup k (cachePut c k e) = some e := by
  unfold cachePut
  rw [List.append_eq]
  induction c with
  | nil => simp [clookup_cons]
  | cons kv rest ih =>
      rw [List.filter_cons]
      by_cases h : kv.1 = k
      · rw [if_neg (by simp [h])]
        exact ih
      · rw [if_pos (by simp [h])]
        cases kv with
        | mk k1 v1 =>
            simp only at h
            rw [List.cons_append, clookup_cons,
              if_neg (fun h2 => h h2.symm)]
            exact ih

theorem heapGet_append_self (h : SliceHeap) (v : List (List Nat)) :
    heapGet (List.append h [v]) h.length = v := by
  induction h with
  | nil => rfl
  | cons x t ih =>
      simp only [heapGet, List.append_eq, List.cons_append, List.length_cons,
        List.getD_cons_succ] at ih ⊢
      exact ih

/-- The cache inside the state returned by `cacheResult` maps the written
key to the written entry, whatever eviction did first. -/
theorem cacheResult_lookup (cfg : TagServiceConfig) (sha : List Nat → List Nat)
    (now : Int) (st : TagServiceState) (content : List Nat)
    (existingTags : List (List Nat)) (r : Nat) :
    List.lookup (cacheKey sha content existingTags)
      (cacheResult cfg sha now st content existingTags r).cache =
      some ⟨r, now⟩ := by
  unfold cacheResult
  exact lookup_cachePut_self _ _ _

/-- A hit of `getFromCache` on a present, unexpired entry: the returned
reference is a freshly allocated slice holding the same tag list. -/
theorem getFromCache_hit (cfg : TagServiceConfig) (sha : List Nat → List Nat)
    (now : Int) (st : TagServiceState) (content : List Nat)
    (existingTags : List (List Nat)) (e : CacheEntry)
    (hce : List.lookup (cacheKey sha content existingTags) st.cache = some e)
    (hexp : isExpired cfg now e = false) :
    getFromCache cfg sha now st content existingTags =
      ({ st with heap := List.append st.heap [heapGet st.heap e.tagsRef] },
       some st.heap.length) := by
  unfold getFromCache
  dsimp only
  rw [hce]
  simp only [hexp, Bool.false_eq_true, if_false, heapAlloc]

/-- C4: storing a tag slice under a key and immediately reading that key
back returns a hit carrying the stored tag list; an entry whose age exceeds
`CacheTTL` is reported as a miss even though it is still physically present
in the map; and every hit returns a freshly allocated copy of the stored
slice, never the stored slice itself. -/
theorem cache_ttl_and_copy (cfg : TagServiceConfig) (sha : List Nat → List Nat)
    (st : TagServiceState) (content : List Nat) (existingTags : List (List Nat))
    (now : Int) (r : Nat)
    (httl : 0 ≤ cfg.cacheTTL) :
    ((getFromCache cfg sha now (cacheResult cfg sha now st content existingTags r)
        content existingTags).2 = some st.heap.length ∧
      heapGet (getFromCache cfg sha now
          (cacheResult cfg sha now st content existingTags r)
          content existingTags).1.heap st.heap.length = heapGet st.heap r) ∧
    (∀ e, List.lookup (cacheKey sha content existingTags) st.cache = some e →
      isExpired cfg now e = true →
      getFromCache cfg sha now st content existingTags = (st, none) ∧
      (List.lookup (cacheKey sha content existingTags) st.cache).isSome) ∧
    (∀ (now3 : Int) (e : CacheEntry),
      List.lookup (cacheKey sha content existingTags) st.cache = some e →
      isExpired cfg now3 e = false → e.tagsRef < st.heap.length →
      (getFromCache cfg sha now3 st content existingTags).2 =
        some st.heap.length ∧
      heapGet (getFromCache cfg sha now3 st content existingTags).1.heap
        st.heap.length = heapGet st.heap e.tagsRef ∧
      st.heap.length ≠ e.tagsRef) := by
  refine ⟨?_, ?_, ?_⟩
  · have hput := cacheResult_lookup cfg sha now st content existingTags r
    have hexp : isExpired cfg now (⟨r, now⟩ : CacheEntry) = false := by
      simp only [isExpired, decide_eq_false_iff_not]
      omega
    have hhit := getFromCache_hit cfg sha now
      (cacheResult cfg sha now st content existingTags r) content existingTags
      ⟨r, now⟩ hput hexp
    rw [hhit]
    have hheap : (cacheResult cfg sha now st content existingTags r).heap =
        st.heap := rfl
    rw [hheap]
    exact ⟨rfl, heapGet_append_self st.heap (heapGet st.heap r)⟩
  · intro e hce hexp
    constructor
    · unfold getFromCache
      dsimp only
      rw [hce]
      simp only [hexp, if_true]
    · rw [hce]
      rfl
  · intro now3 e hce hexp hlt
    have hhit := getFromCache_hit cfg sha now3 st content existingTags e hce hexp
    rw [hhit]
    exact ⟨rfl, heapGet_append_self st.heap (heapGet st.heap e.tagsRef),
      by omega⟩

/-- Witness for C4 at `wState`: storing and reading back at time 10000
(fresh entry), the pre-existing entry of creation time 0 is an expired miss
at time 10000 though still present, and at time 0 the same entry is a hit
returning a fresh copy. -/
theorem cache_ttl_and_copy_witness :
    (getFromCache wCfg wSha 10000
      (cacheResult wCfg wSha 10000 wState [97] [[98]] 0) [97] [[98]]).2 =
      some 1 ∧
    getFromCache wCfg wSha 10000 wState [97] [[98]] = (wState, none) ∧
    (List.lookup (cacheKey wSha [97] [[98]]) wState.cache).isSome ∧
    (getFromCache wCfg wSha 0 wState [97] [[98]]).2 = some 1 ∧
    heapGet (getFromCache wCfg wSha 0 wState [97] [[98]]).1.heap 1 = [[116]] ∧
    (1 : Nat) ≠ 0 := by
  have h := cache_ttl_and_copy wCfg wSha wState [97] [[98]] 10000 0 (by decide)
  have h2 := h.2.1 ⟨0, 0⟩ (by decide) (by decide)
  have h3 := h.2.2 0 ⟨0, 0⟩ (by decide) (by decide) (by decide)
  exact ⟨h.1.1, h2.1, h2.2, h3.1, h3.2.1, h3.2.2⟩

/-- C9: the cache key hashes the content and the tags with no separator, so
the distinct pairs (content "ab", no tags) and (content "a", tags ["b"])
produce the same key under every hash function, and a result cached for the
first pair is returned as a hit for the second. -/
theorem cacheKey_collision (sha : List Nat → List Nat) (cfg : TagServiceConfig)
    (st : TagServiceState) (now : Int) (r : Nat)
    (httl : 0 ≤ cfg.cacheTTL) :
    cacheKey sha [97, 98] [] = cacheKey sha [97] [[98]] ∧
    ¬ ([97, 98] = [97] ∧ ([] : List (List Nat)) = [[98]]) ∧
    (getFromCache cfg sha now
      (cacheResult cfg sha now st [97, 98] [] r) [97] [[98]]).2 =
      some st.heap.length ∧
    heapGet (getFromCache cfg sha now
        (cacheResult cfg sha now st [97, 98] [] r) [97] [[98]]).1.heap
      st.heap.length = heapGet st.heap r := by
  have hkey : cacheKey sha [97, 98] [] = cacheKey sha [97] [[98]] := rfl
  refine ⟨hkey, by simp, ?_, ?_⟩
  all_goals
    have hput := cacheResult_lookup cfg sha now st [97, 98] [] r
    rw [hkey] at hput
    have hexp : isExpired cfg now (⟨r, now⟩ : CacheEntry) = false := by
      simp only [isExpired, decide_eq_false_iff_not]
      omega
    have hhit := getFromCache_hit cfg sha now
      (cacheResult cfg sha now st [97, 98] [] r) [97] [[98]] ⟨r, now⟩ hput hexp
    rw [hhit]
  · rfl
  · exact heapGet_append_self st.heap (heapGet st.heap r)

/-- Witness for C9 at `wSha` and the empty state. -/
theorem cacheKey_collision_witness :
    cacheKey wSha [97, 98] [] = cacheKey wSha [97] [[98]] ∧
    (getFromCache wCfg wSha 0
      (cacheResult wCfg wSha 0 wStateEmpty [97, 98] [] 0) [97] [[98]]).2 =
      some 0 := by
  have h := cacheKey_collision wSha wCfg wStateEmpty 0 0 (by decide)
  exact ⟨h.1, h.2.2.1⟩

/-! ## C10: the cache-hit fast path of `SuggestTagsAsync` -/

/-- C10: when `SuggestTagsAsync` finds a cache hit (and the synthesized
job's id — which hashes the call time — is not already a key of the job
table), the completed job it returns is never inserted into the job table:
`GetJob` on its id reports not-found, and the call leaves both the job table
and the job queue unchanged. -/
theorem suggestTagsAsync_cacheHit_frame (cfg : TagServiceConfig)
    (sha : List Nat → List Nat) (genID : Int → List Nat → Int → List Char)
    (st : TagServiceState) (userID memoID : Int) (content : List Nat)
    (existingTags : List (List Nat)) (now : Int) (ce : CacheEntry)
    (henable : cfg.enableAsync = true)
    (hrl : (checkRateLimit cfg now st.rateLimits userID).1 = true)
    (hce : List.lookup (cacheKey sha content existingTags) st.cache = some ce)
    (hexp : isExpired cfg now ce = false)
    (hfresh : st.jobs (genID memoID content now) = none) :
    (suggestTagsAsync cfg sha genID now st userID memoID content
        existingTags).2.jobs = st.jobs ∧
    (suggestTagsAsync cfg sha genID now st userID memoID content
        existingTags).2.jobQueue = st.jobQueue ∧
    GetJob (suggestTagsAsync cfg sha genID now st userID memoID content
        existingTags).2 (genID memoID content now) = none ∧
    (∃ job, (suggestTagsAsync cfg sha genID now st userID memoID content
        existingTags).1 = .ok job ∧
      job.id = genID memoID content now ∧ job.status = .completed) := by
  have hrlne : ¬ ((checkRateLimit cfg now st.rateLimits userID).1 = false) := by
    rw [hrl]
    simp
  have hgfc := getFromCache_hit cfg sha now
    { st with rateLimits := (checkRateLimit cfg now st.rateLimits userID).2 }
    content existingTags ce hce hexp
  unfold suggestTagsAsync
  rw [henable]
  dsimp only
  rw [if_neg hrlne, hgfc]
  dsimp only [GetJob]
  exact ⟨rfl, rfl, hfresh, ⟨_, rfl, rfl, rfl⟩⟩

/-- Witness for C10 at `wState` (which holds a cached entry for content
`[97]`, tags `[[98]]`). -/
theorem suggestTagsAsync_cacheHit_frame_witness :
    (suggestTagsAsync wCfg wSha wGenID 0 wState 1 7 [97] [[98]]).2.jobs =
      wState.jobs ∧
    (suggestTagsAsync wCfg wSha wGenID 0 wState 1 7 [97] [[98]]).2.jobQueue =
      wState.jobQueue ∧
    GetJob (suggestTagsAsync wCfg wSha wGenID 0 wState 1 7 [97] [[98]]).2
      ['j'] = none := by
  have h := suggestTagsAsync_cacheHit_frame wCfg wSha wGenID wState 1 7 [97]
    [[98]] 0 ⟨0, 0⟩ (by decide) (by decide) (by decide) (by decide) rfl
  exact ⟨h.1, h.2.1, h.2.2.1⟩

/-! ## C5: eviction policy -/

theorem firstMinAux_spec :
    ∀ (t : List (List Char × CacheEntry)) (bi : Nat) (bv : Int) (j : Nat),
      bi < j →
      (firstMinAux bi bv j t).2 ≤ bv ∧
      (∀ x ∈ t, (firstMinAux bi bv j t).2 ≤ x.2.createdAt) ∧
      (((firstMinAux bi bv j t).1 = bi ∧ (firstMinAux bi bv j t).2 = bv) ∨
        (j ≤ (firstMinAux bi bv j t).1 ∧
         (firstMinAux bi bv j t).1 < j + t.length ∧
         ∃ x, t.get? ((firstMinAux bi bv j t).1 - j) = some x ∧
           x.2.createdAt = (firstMinAux bi bv j t).2))
  | [], bi, bv, j, hbij => ⟨le_refl bv, by simp, Or.inl ⟨rfl, rfl⟩⟩
  | e :: rest, bi, bv, j, hbij => by
      by_cases h : e.2.createdAt < bv
      · obtain ⟨ih1, ih2, ih3⟩ :=
          firstMinAux_spec rest j e.2.createdAt (j + 1) (by omega)
        simp only [firstMinAux, if_pos h]
        refine ⟨by omega, ?_, ?_⟩
        · intro x hx
          rcases List.mem_cons.mp hx with hxe | hxt
          · rw [hxe]
            exact ih1
          · exact ih2 x hxt
        · rcases ih3 with ⟨hi, hv⟩ | ⟨hge, hlt, x, hx, hxv⟩
          · refine Or.inr ⟨by omega, by simp [hi], ?_⟩
            rw [hi]
            simp only [Nat.sub_self, List.get?]
            exact ⟨e, rfl, hv.symm⟩
          · refine Or.inr ⟨by omega, by simp only [List.length_cons]; omega, ?_⟩
            refine ⟨x, ?_, hxv⟩
            have hidx : (firstMinAux j e.2.createdAt (j + 1) rest).1 - j =
                ((firstMinAux j e.2.createdAt (j + 1) rest).1 - (j + 1)) + 1 := by
              omega
            rw [hidx]
            simpa using hx
      · obtain ⟨ih1, ih2, ih3⟩ :=
          firstMinAux_spec rest bi bv (j + 1) (by omega)
        simp only [firstMinAux, if_neg h]
        refine ⟨ih1, ?_, ?_⟩
        · intro x hx
          rcases List.mem_cons.mp hx with hxe | hxt
          · rw [hxe]
            omega
          · exact ih2 x hxt
        · rcases ih3 with ⟨hi, hv⟩ | ⟨hge, hlt, x, hx, hxv⟩
          · exact Or.inl ⟨hi, hv⟩
          · refine Or.inr ⟨by omega, by simp only [List.length_cons]; omega, ?_⟩
            refine ⟨x, ?_, hxv⟩
            have hidx : (firstMinAux bi bv (j + 1) rest).1 - j =
                ((firstMinAux bi bv (j + 1) rest).1 - (j + 1)) + 1 := by
              omega
            rw [hidx]
            simpa using hx

theorem mem_of_get_some {α : Type} (l : List α) (n : Nat) (a : α)
    (h : l.get? n = some a) : a ∈ l := by
  induction l generalizing n with
  | nil => simp [List.get?] at h
  | cons x t ih =>
      cases n with
      | zero =>
          simp only [List.get?] at h
          cases h
          exact List.mem_cons_self _ _
      | succ n => exact List.mem_cons_of_mem _ (ih n h)

theorem extractOldest_spec (l : List (List Char × CacheEntry)) (hne : l ≠ []) :
    ∃ x rest, extractOldest l = some (x, rest) ∧ x ∈ l ∧
      (∀ y ∈ l, x.2.createdAt ≤ y.2.createdAt) ∧
      rest.length + 1 = l.length ∧ (∀ y ∈ rest, y ∈ l) := by
  cases l with
  | nil => exact absurd rfl hne
  | cons h t =>
      obtain ⟨h1, h2, h3⟩ := firstMinAux_spec t 0 h.2.createdAt 1 (by omega)
      rcases hr : firstMinAux 0 h.2.createdAt 1 t with ⟨i, v⟩
      rw [hr] at h1 h2 h3
      simp only at h1 h2 h3
      unfold extractOldest
      dsimp only
      rw [hr]
      cases i with
      | zero =>
          have hv : v = h.2.createdAt := by
            rcases h3 with ⟨_, hveq⟩ | ⟨hge, _⟩
            · exact hveq
            · omega
          refine ⟨h, t, rfl, List.mem_cons_self _ _, ?_, by simp, ?_⟩
          · intro y hy
            rcases List.mem_cons.mp hy with hyh | hyt
            · rw [hyh]
            · have := h2 y hyt
              omega
          · exact fun y hy => List.mem_cons_of_mem _ hy
      | succ m =>
          rcases h3 with ⟨hi0, _⟩ | ⟨hge, hlt, x, hx, hxv⟩
          · exact absurd hi0 (by omega)
          · have hxm : t.get? m = some x := by simpa using hx
            dsimp only
            rw [hxm]
            refine ⟨x, t.set m h, rfl,
              List.mem_cons_of_mem _ (mem_of_get_some t m x hxm), ?_, ?_, ?_⟩
            · intro y hy
              rcases List.mem_cons.mp hy with hyh | hyt
              · rw [hyh, hxv]
                omega
              · have := h2 y hyt
                omega
            · simp
            · intro y hy
              rcases List.mem_or_eq_of_mem_set hy with hyt | hyh
              · exact List.mem_cons_of_mem _ hyt
              · rw [hyh]
                exact List.mem_cons_self _ _

theorem selectionRemove_spec :
    ∀ (n : Nat) (l : List (List Char × CacheEntry)),
      (selectionRemove l n).1.length = min n l.length ∧
      (selectionRemove l n).2.length = l.length - min n l.length ∧
      (∀ r ∈ (selectionRemove l n).1, r ∈ l) ∧
      (∀ k1 ∈ (selectionRemove l n).2, k1 ∈ l) ∧
      (∀ r ∈ (selectionRemove l n).1, ∀ k1 ∈ (selectionRemove l n).2,
        r.2.createdAt ≤ k1.2.createdAt)
  | 0, l => by simp [selectionRemove]
  | n + 1, l => by
      by_cases hl : l = []
      · subst hl
        simp [selectionRemove, extractOldest]
      · obtain ⟨x, rest, hex, hxmem, hxmin, hlen, hsub⟩ := extractOldest_spec l hl
        obtain ⟨ih1, ih2, ih3, ih4, ih5⟩ := selectionRemove_spec n rest
        simp only [selectionRemove, hex]
        have hll : rest.length + 1 = l.length := hlen
        refine ⟨?_, ?_, ?_, ?_, ?_⟩
        · simp only [List.length_cons, ih1]
          omega
        · simp only [ih2]
          omega
        · intro r hr
          rcases List.mem_cons.mp hr with hrx | hrr
          · rw [hrx]
            exact hxmem
          · exact hsub r (ih3 r hrr)
        · intro k1 hk1
          exact hsub k1 (ih4 k1 hk1)
        · intro r hr k1 hk1
          rcases List.mem_cons.mp hr with hrx | hrr
          · rw [hrx]
            exact hxmin k1 (hsub k1 (ih4 k1 hk1))
          · exact ih5 r hrr k1 hk1

/-- C5 (amended): when an insert finds the cache at capacity, eviction first
removes every TTL-expired entry; if the cache is still at or over capacity
it removes the `MaxCacheSize/10` (at least 1, and at most the number of
remaining entries) oldest remaining entries by creation time — at least one
entry whenever the capacity is at least 1.  With capacity 0 and an empty
cache (the degenerate at-capacity case) nothing is removed. -/
theorem evict_policy_amended (cfg : TagServiceConfig) (now : Int)
    (cache : CacheMap)
    (hcap : cfg.maxCacheSize ≤ cache.length)
    (hpos : 1 ≤ cfg.maxCacheSize) :
    (∀ kv ∈ evictOldestEntries cfg now cache,
      isExpired cfg now kv.2 = false ∧ kv ∈ cache) ∧
    (cfg.maxCacheSize ≤
        (cache.filter (fun kv => ¬ isExpired cfg now kv.2)).length →
      (evictOldestEntries cfg now cache).length =
        (cache.filter (fun kv => ¬ isExpired cfg now kv.2)).length -
          min (if cfg.maxCacheSize / 10 < 1 then 1 else cfg.maxCacheSize / 10)
            (cache.filter (fun kv => ¬ isExpired cfg now kv.2)).length ∧
      (evictOldestEntries cfg now cache).length <
        (cache.filter (fun kv => ¬ isExpired cfg now kv.2)).length ∧
      (∀ r ∈ (selectionRemove
            (cache.filter (fun kv => ¬ isExpired cfg now kv.2))
            (if cfg.maxCacheSize / 10 < 1 then 1 else cfg.maxCacheSize / 10)).1,
        ∀ k1 ∈ evictOldestEntries cfg now cache,
          r.2.createdAt ≤ k1.2.createdAt)) ∧
    ((cache.filter (fun kv => ¬ isExpired cfg now kv.2)).length <
        cfg.maxCacheSize →
      evictOldestEntries cfg now cache =
        cache.filter (fun kv => ¬ isExpired cfg now kv.2)) := by
  have hmem_purged : ∀ kv ∈ cache.filter (fun kv => ¬ isExpired cfg now kv.2),
      isExpired cfg now kv.2 = false ∧ kv ∈ cache := by
    intro kv hkv
    constructor
    · have := List.of_mem_filter hkv
      simpa using this
    · exact List.mem_of_mem_filter hkv
  refine ⟨?_, ?_, ?_⟩
  · intro kv hkv
    unfold evictOldestEntries at hkv
    by_cases hc : cfg.maxCacheSize ≤
        (cache.filter (fun kv => ¬ isExpired cfg now kv.2)).length
    · rw [if_pos hc] at hkv
      obtain ⟨_, _, _, hkept, _⟩ := selectionRemove_spec
        (if cfg.maxCacheSize / 10 < 1 then 1 else cfg.maxCacheSize / 10)
        (cache.filter (fun kv => ¬ isExpired cfg now kv.2))
      exact hmem_purged kv (hkept kv hkv)
    · rw [if_neg hc] at hkv
      exact hmem_purged kv hkv
  · intro hc
    obtain ⟨hlen1, hlen2, _, _, hmin⟩ := selectionRemove_spec
      (if cfg.maxCacheSize / 10 < 1 then 1 else cfg.maxCacheSize / 10)
      (cache.filter (fun kv => ¬ isExpired cfg now kv.2))
    have hev : evictOldestEntries cfg now cache = (selectionRemove
        (cache.filter (fun kv => ¬ isExpired cfg now kv.2))
        (if cfg.maxCacheSize / 10 < 1 then 1 else cfg.maxCacheSize / 10)).2 := by
      unfold evictOldestEntries
      rw [if_pos hc]
    have htr : 1 ≤ (if cfg.maxCacheSize / 10 < 1 then 1
        else cfg.maxCacheSize / 10) := by
      by_cases h10 : cfg.maxCacheSize / 10 < 1
      · rw [if_pos h10]
      · rw [if_neg h10]
        omega
    refine ⟨?_, ?_, ?_⟩
    · rw [hev, hlen2]
    · rw [hev, hlen2]
      omega
    · intro r hr k1 hk1
      rw [hev] at hk1
      exact hmin r hr k1 hk1
  · intro hc
    unfold evictOldestEntries
    rw [if_neg (by omega)]

/-- Witness for C5 (amended) at capacity 1 with a single unexpired cached
entry: the purge keeps it, the cache is still at capacity, and the
selection removes exactly that oldest entry. -/
theorem evict_policy_amended_witness :
    evictOldestEntries wCfgOne 0 wState.cache = [] ∧
    (evictOldestEntries wCfgOne 0 wState.cache).length <
      (wState.cache.filter (fun kv => ¬ isExpired wCfgOne 0 kv.2)).length := by
  have h := evict_policy_amended wCfgOne 0 wState.cache (by decide) (by decide)
  have h2 := h.2.1 (by decide)
  refine ⟨?_, h2.2.1⟩
  have h3 := h2.1
  have : evictOldestEntries wCfgOne 0 wState.cache =
      evictOldestEntries wCfgOne 0 wState.cache := rfl
  revert h3
  decide

/-- Counterexample for C5 as stated: with `MaxCacheSize = 0` and an empty
cache, an insert finds the cache at capacity (0 ≥ 0), the purge leaves it
still at capacity, and yet the eviction removes no entry at all —
contradicting "removing at least one entry". -/
theorem evict_counterexample :
    wCfgZero.maxCacheSize ≤ ([] : CacheMap).length ∧
    wCfgZero.maxCacheSize ≤
      (([] : CacheMap).filter (fun kv => ¬ isExpired wCfgZero 0 kv.2)).length ∧
    evictOldestEntries wCfgZero 0 [] = [] ∧
    ¬ (1 ≤ (([] : CacheMap).filter
          (fun kv => ¬ isExpired wCfgZero 0 kv.2)).length -
        (evictOldestEntries wCfgZero 0 []).length) := by
  decide

/-! ## C1: KeyCrypto roundtrip -/

theorem b64IndexOf_charOf : ∀ n < 64, b64IndexOf (b64CharOf n) = some n := by
  decide

theorem b64CharOf_ne_pad : ∀ n < 64, b64CharOf n ≠ '=' := by
  decide

theorem b64Encode_ne_nil : ∀ l : List Nat, l ≠ [] → b64Encode l ≠ [] := by
  intro l hl
  match l with
  | [] => exact absurd rfl hl
  | [a] => simp [b64Encode]
  | [a, b] => simp [b64Encode]
  | a :: b :: c :: rest => simp [b64Encode]

theorem b64_roundtrip : ∀ l : List Nat, (∀ b ∈ l, b < 256) →
    b64Decode (b64Encode l) = some l
  | [], _ => rfl
  | [a], h => by
      have ha : a < 256 := h a (by simp)
      have h1 : b64IndexOf (b64CharOf (a / 4)) = some (a / 4) :=
        b64IndexOf_charOf _ (by omega)
      have h2 : b64IndexOf (b64CharOf (a % 4 * 16)) = some (a % 4 * 16) :=
        b64IndexOf_charOf _ (by omega)
      simp [b64Encode, b64Decode, h1, h2]
      omega
  | [a, b], h => by
      have ha : a < 256 := h a (by simp)
      have hb : b < 256 := h b (by simp)
      have h1 : b64IndexOf (b64CharOf (a / 4)) = some (a / 4) :=
        b64IndexOf_charOf _ (by omega)
      have h2 : b64IndexOf (b64CharOf (a % 4 * 16 + b / 16)) =
          some (a % 4 * 16 + b / 16) := b64IndexOf_charOf _ (by omega)
      have h3 : b64IndexOf (b64CharOf (b % 16 * 4)) = some (b % 16 * 4) :=
        b64IndexOf_charOf _ (by omega)
      have hpad : b64CharOf (b % 16 * 4) ≠ '=' := b64CharOf_ne_pad _ (by omega)
      simp [b64Encode, b64Decode, h1, h2, h3, hpad]
      constructor
      · omega
      · omega
  | a :: b :: c :: rest, h => by
      have ha : a < 256 := h a (by simp)
      have hb : b < 256 := h b (by simp)
      have hc : c < 256 := h c (by simp)
      have h1 : b64IndexOf (b64CharOf (a / 4)) = some (a / 4) :=
        b64IndexOf_charOf _ (by omega)
      have h2 : b64IndexOf (b64CharOf (a % 4 * 16 + b / 16)) =
          some (a % 4 * 16 + b / 16) := b64IndexOf_charOf _ (by omega)
      have h3 : b64IndexOf (b64CharOf (b % 16 * 4 + c / 64)) =
          some (b % 16 * 4 + c / 64) := b64IndexOf_charOf _ (by omega)
      have h4 : b64IndexOf (b64CharOf (c % 64)) = some (c % 64) :=
        b64IndexOf_charOf _ (by omega)
      have hrec : b64Decode (b64Encode rest) = some rest :=
        b64_roundtrip rest (fun y hy => h y (by simp [hy]))
      have hpad3 : b64CharOf (b % 16 * 4 + c / 64) ≠ '=' :=
        b64CharOf_ne_pad _ (by omega)
      have hpad4 : b64CharOf (c % 64) ≠ '=' := b64CharOf_ne_pad _ (by omega)
      simp [b64Encode, b64Decode, h1, h2, h3, h4, hrec, hpad3, hpad4]
      refine ⟨by omega, by omega, by omega⟩

/-- C1: for every master secret of at least 16 bytes accepted by
`NewKeyCrypto` and every plaintext byte string `x`, decryption inverts
encryption, where the AEAD scheme satisfies its open/seal contract on the
drawn nonce (Go's AES-GCM does, with a 12-byte nonce and all outputs being
bytes); in particular encrypting the empty string gives the empty string and
decrypting the empty string gives the empty string. -/
theorem kc_encrypt_decrypt_roundtrip (g : AEADScheme)
    (sha : List Nat → List Nat) (masterKey key nonce x : List Nat)
    (hkc : NewKeyCrypto sha masterKey = some key)
    (hns : 0 < g.nonceSize)
    (hnl : nonce.length = g.nonceSize)
    (hnb : ∀ b ∈ nonce, b < 256)
    (hsb : ∀ b ∈ g.sealGCM key nonce x, b < 256)
    (hopen : g.openGCM key nonce (g.sealGCM key nonce x) = some x) :
    kcDecrypt g key (kcEncrypt g key nonce x) = some x ∧
    kcEncrypt g key nonce [] = [] ∧
    kcDecrypt g key [] = some [] := by
  refine ⟨?_, rfl, rfl⟩
  by_cases hx : x = []
  · subst hx
    rfl
  · have hnonce_ne : nonce ≠ [] := by
      intro hn
      rw [hn] at hnl
      simp at hnl
      omega
    have hdata_ne : nonce ++ g.sealGCM key nonce x ≠ [] := by
      simp [hnonce_ne]
    have hbounds : ∀ b ∈ nonce ++ g.sealGCM key nonce x, b < 256 := by
      intro b hb
      rcases List.mem_append.mp hb with hbn | hbs
      · exact hnb b hbn
      · exact hsb b hbs
    have hrt := b64_roundtrip (nonce ++ g.sealGCM key nonce x) hbounds
    unfold kcEncrypt kcDecrypt
    rw [if_neg hx, if_neg (b64Encode_ne_nil _ hdata_ne), hrt]
    dsimp only
    have hlen : ¬ (nonce ++ g.sealGCM key nonce x).length < g.nonceSize := by
      rw [List.length_append, ← hnl]
      omega
    rw [if_neg hlen]
    have htake : (nonce ++ g.sealGCM key nonce x).take g.nonceSize = nonce := by
      rw [← hnl]
      exact List.take_left nonce _
    have hdrop : (nonce ++ g.sealGCM key nonce x).drop g.nonceSize =
        g.sealGCM key nonce x := by
      rw [← hnl]
      exact List.drop_left nonce _
    rw [htake, hdrop, hopen]

/-- Witness for C1 with the trivial AEAD scheme (identity sealing, 1-byte
nonce), the constant hash and a 16-byte master key. -/
theorem kc_encrypt_decrypt_roundtrip_witness :
    kcDecrypt wAEAD [] (kcEncrypt wAEAD [] [7] [104, 105]) = some [104, 105] ∧
    kcEncrypt wAEAD [] [7] [] = [] ∧
    kcDecrypt wAEAD [] [] = some [] := by
  exact kc_encrypt_decrypt_roundtrip wAEAD wSha (List.replicate 16 0) [] [7]
    [104, 105] (by decide) (by decide) (by decide) (by decide) (by decide) rfl

end MemosLLM
